import Mathlib

/-!
Verification of the workspace-state engine of `meta_mcp` (`src/main.rs`).

The development shallowly embeds the core pure logic of the program:
the conjunctive query language (`parse_query` / `matches_query`), the
dependency graph (`build_dependency_graph`, `analyze_project_impact`,
`topological_sort`), the snapshot-restore loop and the batch executor.
External effects (git subprocesses, the filesystem) are abstracted as
oracle functions passed to the embedded operations; everything the Rust
code computes from the oracle answers is modelled faithfully, including
the iteration structure of each loop (loops that can enqueue work are
given an explicit fuel argument together with lemmas showing the fuel
bound used by the definitions is always sufficient).

Rust `HashMap`s are modelled as association lists whose iteration order
is the insertion order (one admissible iteration order of the hash map).
-/

/-! ## Association-list helpers (model of the Rust `HashMap`s) -/

/-- First-match lookup in an association list (model of `HashMap::get`). -/
def alistLookup {α : Type} (m : List (String × α)) (k : String) : Option α :=
  match m with
  | [] => none
  | (k', v) :: rest => if k' = k then some v else alistLookup rest k

/-- Lookup with a default value. -/
def lookupD {α : Type} (m : List (String × α)) (k : String) (d : α) : α :=
  (alistLookup m k).getD d

/-- Insert-or-replace (model of `HashMap::insert`). -/
def alistInsert {α : Type} (m : List (String × α)) (k : String) (v : α) :
    List (String × α) :=
  match m with
  | [] => [(k, v)]
  | (k', v') :: rest =>
      if k' = k then (k', v) :: rest else (k', v') :: alistInsert rest k v

/-- Model of `map.entry(k).or_default().push(v)` for `HashMap<String, Vec<String>>`. -/
def alistPush (m : List (String × List String)) (k : String) (v : String) :
    List (String × List String) :=
  match m with
  | [] => [(k, [v])]
  | (k', vs) :: rest =>
      if k' = k then (k', vs ++ [v]) :: rest else (k', vs) :: alistPush rest k v

/-- Model of `if let Some(d) = map.get_mut(k) { *d += 1 }`. -/
def bumpInDegree (m : List (String × Nat)) (dep : String) : List (String × Nat) :=
  match m with
  | [] => []
  | (k, d) :: rest =>
      if k = dep then (k, d + 1) :: rest else (k, d) :: bumpInDegree rest dep

/-- Overwrite the value stored at a key that is present (no-op when absent). -/
def alistSet {α : Type} (m : List (String × α)) (k : String) (v : α) :
    List (String × α) :=
  match m with
  | [] => []
  | (k', v') :: rest =>
      if k' = k then (k', v) :: rest else (k', v') :: alistSet rest k v

/-- Keys of an association list. -/
def alistKeys {α : Type} (m : List (String × α)) : List String :=
  m.map (fun kv => kv.1)

/-! ## Query engine (`parse_query`, `matches_query`) -/

/-- Embedding of the repository state record produced by `collect_repo_state`:
all fields that `matches_query` can inspect, with the types the JSON object
always carries. -/
structure RepoState where
  name : String
  path : String
  branch : String
  tags : List String
  is_dirty : Bool
  ahead : Int
  behind : Int
  last_commit : String
deriving DecidableEq, Repr

/-- Split a character list on the leftmost non-overlapping occurrences of a
separator, like Rust `str::split` with a string pattern. The fuel argument
(instantiated with the length of the input) only serves structural recursion;
it is always sufficient. -/
def splitOnAux (sep : List Char) : Nat → List Char → List Char → List (List Char)
  | 0, s, acc => [acc.reverse ++ s]
  | fuel + 1, s, acc =>
    match s with
    | [] => [acc.reverse]
    | c :: rest =>
      if sep.isPrefixOf (c :: rest) ∧ sep ≠ [] then
        acc.reverse :: splitOnAux sep fuel ((c :: rest).drop sep.length) []
      else
        splitOnAux sep fuel rest (c :: acc)

/-- Model of Rust `str::split` on a literal separator. -/
def splitOnStr (s sep : String) : List String :=
  (splitOnAux sep.toList s.toList.length s.toList []).map String.mk

/-- Model of Rust `str::trim` (for the ASCII inputs of this program). -/
def trimChars (s : List Char) : List Char :=
  ((s.dropWhile Char.isWhitespace).reverse.dropWhile Char.isWhitespace).reverse

/-- Model of Rust `str::trim` at the `String` boundary. -/
def trimStr (s : String) : String :=
  String.mk (trimChars s.toList)

/-- Model of Rust `str::to_lowercase` (for the ASCII inputs of this program). -/
def lowerStr (s : String) : String :=
  String.mk (s.toList.map Char.toLower)

/-- Model of Rust `str::splitn(2, ':')`: split at the first colon only. -/
def splitFirstColon (s : String) : List String :=
  match (s.toList).findIdx? (fun c => c = ':') with
  | none => [s]
  | some i => [String.mk ((s.toList).take i), String.mk ((s.toList).drop (i + 1))]

/-- Model of Rust `value.parse::<bool>()`: accepts exactly "true" and "false". -/
def parseRustBool (s : String) : Option Bool :=
  if s = "true" then some true else if s = "false" then some false else none

/-- Remove consecutive duplicates (model of `Vec::dedup`). -/
def dedupConsec {α : Type} [DecidableEq α] : List α → List α
  | [] => []
  | [a] => [a]
  | a :: b :: rest =>
      if a = b then dedupConsec (b :: rest) else a :: dedupConsec (b :: rest)

/-- Embedding of `parse_query` (src/main.rs:2351): the conjuncts are the pieces
of the split on `" AND "` chained with the pieces of the split on `" and "`;
empty pieces and pieces without a colon are dropped; fields are trimmed and
lowercased, values trimmed; finally consecutive duplicates are removed. -/
def parse_query (query_str : String) : List (String × String) :=
  let pieces := splitOnStr query_str (" AND ") ++ splitOnStr query_str (" and ")
  let conditions := pieces.foldl
    (fun acc part =>
      let part := trimStr part
      if part = "" then acc
      else
        match splitFirstColon part with
        | [f, v] => acc ++ [(lowerStr (trimStr f), trimStr v)]
        | _ => acc)
    []
  dedupConsec conditions

/-- Embedding of one condition check inside `matches_query` (src/main.rs:2406). -/
def condMatches (state : RepoState) (field value : String) : Bool :=
  if field = "dirty" then state.is_dirty == (parseRustBool value).getD false
  else if field = "branch" then state.branch == value
  else if field = "tag" then state.tags.contains value
  else if field = "ahead" then decide (state.ahead > 0) == (parseRustBool value).getD false
  else if field = "behind" then decide (state.behind > 0) == (parseRustBool value).getD false
  else true

/-- Embedding of `matches_query`: every condition must match. -/
def matches_query (state : RepoState) (conditions : List (String × String)) : Bool :=
  conditions.all (fun c => condMatches state c.1 c.2)

/-! ## Project records and the dependency graph -/

/-- Embedding of `ProjectInfo` (src/main.rs:128). -/
structure ProjectInfo where
  name : String
  path : String
  repo : String
  tags : List String
deriving DecidableEq, Repr

/-- Embedding of `ExtendedProjectInfo` (src/main.rs:137). -/
structure ExtendedProjectInfo where
  name : String
  path : String
  repo : String
  tags : List String
  provides : List String
  depends_on : List String
deriving DecidableEq, Repr

/-- Embedding of `DependencyGraph` (src/main.rs:147); the three hash maps are
modelled as association lists in insertion order. -/
structure DependencyGraph where
  nodes : List (String × ExtendedProjectInfo)
  edges : List (String × List String)
  reverse_edges : List (String × List String)
deriving DecidableEq, Repr

/-- Embedding of the pure part of `load_projects_extended` (src/main.rs:2506):
every project is given empty `provides` and `depends_on` lists. -/
def load_projects_extended (projects : List ProjectInfo) : List ExtendedProjectInfo :=
  projects.map (fun p =>
    { name := p.name, path := p.path, repo := p.repo, tags := p.tags,
      provides := [], depends_on := [] })

/-- One iteration of the project loop of `build_dependency_graph`
(src/main.rs:2534): insert the node and its edge list, then push a reverse
edge for every dependency. -/
def buildStep (g : DependencyGraph) (p : ExtendedProjectInfo) : DependencyGraph :=
  let g1 : DependencyGraph :=
    { nodes := alistInsert g.nodes p.name p,
      edges := alistInsert g.edges p.name p.depends_on,
      reverse_edges := g.reverse_edges }
  p.depends_on.foldl
    (fun g2 dep => { g2 with reverse_edges := alistPush g2.reverse_edges dep p.name })
    g1

/-- Embedding of `build_dependency_graph` (src/main.rs:2527). -/
def build_dependency_graph (projects : List ExtendedProjectInfo) : DependencyGraph :=
  projects.foldl buildStep { nodes := [], edges := [], reverse_edges := [] }

/-- The reverse-adjacency list of a name: `graph.reverse_edges.get(name)`
defaulted to the empty list, as read by the traversals. -/
def revAdj (g : DependencyGraph) (name : String) : List String :=
  lookupD g.reverse_edges name []

/-! ## Impact analysis (`analyze_project_impact`, src/main.rs:2553) -/

/-- State of the BFS loop inside `analyze_project_impact`. -/
structure BfsState where
  transitive : List String
  visited : List String
  queue : List (String × Nat)
deriving DecidableEq, Repr

/-- One iteration of the BFS over reverse-dependency edges, applied to a state
whose queue starts with `(current, depth)`. -/
def bfsVisit (g : DependencyGraph) (current : String) (depth : Nat)
    (s : BfsState) (rest : List (String × Nat)) : BfsState :=
  if current ∈ s.visited then
    { s with queue := rest }
  else
    let visited := s.visited ++ [current]
    let transitive := if 1 < depth then s.transitive ++ [current] else s.transitive
    let pushes := (revAdj g current).filter (fun d => ¬ d ∈ visited)
    { transitive := transitive, visited := visited,
      queue := rest ++ pushes.map (fun d => (d, depth + 1)) }

/-- The fuelled BFS loop of `analyze_project_impact`. -/
def bfsLoop (g : DependencyGraph) : Nat → BfsState → BfsState
  | 0, s => s
  | fuel + 1, s =>
    match s.queue with
    | [] => s
    | (current, depth) :: rest => bfsLoop g fuel (bfsVisit g current depth s rest)

/-- Number of reverse-edge targets not yet accounted for by the visited set;
together with the queue length this bounds the remaining loop iterations. -/
def reSum (g : DependencyGraph) (visited : List String) : Nat :=
  (g.reverse_edges.map (fun kv => if kv.1 ∈ visited then 0 else kv.2.length)).sum

/-- Fuel bound for the BFS loop: it strictly exceeds the number of iterations
the loop can still perform from state `s`. -/
def bfsBound (g : DependencyGraph) (s : BfsState) : Nat :=
  s.queue.length + reSum g s.visited

/-- The complete BFS run performed by `analyze_project_impact project_name`. -/
def impactRun (g : DependencyGraph) (project_name : String) : BfsState :=
  let s0 : BfsState :=
    { transitive := [], visited := [],
      queue := (revAdj g project_name).map (fun d => (d, 1)) }
  bfsLoop g (bfsBound g s0) s0

/-- The result record of `analyze_project_impact`. -/
structure ImpactResult where
  project : String
  direct_dependents : List String
  transitive_dependents : List String
  total_affected : Nat
deriving DecidableEq, Repr

/-- Embedding of `analyze_project_impact` (src/main.rs:2553). -/
def analyze_project_impact (g : DependencyGraph) (project_name : String) : ImpactResult :=
  let s := impactRun g project_name
  { project := project_name,
    direct_dependents := revAdj g project_name,
    transitive_dependents := s.transitive,
    total_affected := s.visited.length }

/-! ## Topological sort (`topological_sort`, src/main.rs:2599) -/

/-- The initial in-degree map: `0` for every node key, in iteration order. -/
def initInDegree (nodes : List (String × ExtendedProjectInfo)) : List (String × Nat) :=
  nodes.foldl (fun m kv => alistInsert m kv.1 0) []

/-- Embedding of the in-degree calculation (src/main.rs:2614): for every value
list of `edges` and every entry in it, the entry's own counter is incremented
when present. -/
def calcInDegree (g : DependencyGraph) : List (String × Nat) :=
  g.edges.foldl (fun m kv => kv.2.foldl bumpInDegree m) (initInDegree g.nodes)

/-- Seed queue of the sort: the in-degree keys holding `0`, in map order. -/
def topoSeeds (m : List (String × Nat)) : List String :=
  (m.filter (fun kv => kv.2 = 0)).map (fun kv => kv.1)

/-- Whether a node passes the tag filter at emission time (src/main.rs:2633). -/
def tagInclude (g : DependencyGraph) (tag_filter : Option String) (current : String) : Bool :=
  match tag_filter with
  | none => true
  | some tag => ((alistLookup g.nodes current).map (fun p => p.tags.contains tag)).getD false

/-- State of the queue-processing loop of `topological_sort`. The `underflow`
flag records whether a `*degree -= 1` was ever executed on a counter that was
already `0` (which would panic in a debug build of the source). -/
structure TopoState where
  in_degree : List (String × Nat)
  queue : List String
  result : List String
  underflow : Bool
deriving DecidableEq, Repr

/-- Decrement the in-degrees of the dependents of the dequeued node, enqueuing
every dependent whose counter reaches `0` (src/main.rs:2647). -/
def topoDecrement (dependents : List String) (s : TopoState) : TopoState :=
  dependents.foldl
    (fun t dependent =>
      match alistLookup t.in_degree dependent with
      | none => t
      | some d =>
          { t with
            in_degree := alistSet t.in_degree dependent (d - 1),
            queue := if d = 1 then t.queue ++ [dependent] else t.queue,
            underflow := t.underflow || decide (d = 0) })
    s

/-- One iteration of the `topological_sort` loop on a state whose queue starts
with `current`. -/
def topoStep (g : DependencyGraph) (tag_filter : Option String)
    (current : String) (s : TopoState) (rest : List String) : TopoState :=
  let s1 : TopoState :=
    { s with
      queue := rest,
      result := if tagInclude g tag_filter current then s.result ++ [current] else s.result }
  match alistLookup g.reverse_edges current with
  | none => s1
  | some dependents => topoDecrement dependents s1

/-- The fuelled queue-processing loop of `topological_sort`. -/
def topoLoop (g : DependencyGraph) (tag_filter : Option String) :
    Nat → TopoState → TopoState
  | 0, s => s
  | fuel + 1, s =>
    match s.queue with
    | [] => s
    | current :: rest => topoLoop g tag_filter fuel (topoStep g tag_filter current s rest)

/-- Fuel bound for the sort loop: seeds plus one possible enqueue per node. -/
def topoBound (s : TopoState) : Nat :=
  s.queue.length + s.in_degree.length

/-- The complete run performed by `topological_sort`. -/
def topoRun (g : DependencyGraph) (tag_filter : Option String) : TopoState :=
  let s0 : TopoState :=
    { in_degree := calcInDegree g, queue := topoSeeds (calcInDegree g),
      result := [], underflow := false }
  topoLoop g tag_filter (topoBound s0) s0

/-- Embedding of `topological_sort` (src/main.rs:2599): the emitted order. -/
def topological_sort (g : DependencyGraph) (tag_filter : Option String) : List String :=
  (topoRun g tag_filter).result

/-- Whether a run of `topological_sort` ever decremented a zero in-degree. -/
def topological_sort_underflowed (g : DependencyGraph) (tag_filter : Option String) : Bool :=
  (topoRun g tag_filter).underflow

/-! ## Snapshot restore (`tool_snapshot_restore`, src/main.rs:2133) -/

/-- One recorded project entry of a snapshot, with the fields the restore loop
reads (the recorded dirty flag is not consulted by restore). -/
structure SnapProject where
  name : String
  path : String
  branch : String
  commit : String
deriving DecidableEq, Repr

/-- Read-only oracles standing for the git/filesystem effects the restore loop
performs, indexed by the project path recorded in the snapshot. -/
structure RestoreOracles where
  pathExists : String → Bool
  gitStatus : String → String
  checkout : String → String → Except String Unit
  reset : String → String → Except String Unit

/-- Outcome of the restore pipeline for a single recorded project: either the
restored project name or the `(name, error)` pair recorded in `failed`. -/
def restoreStep (oc : RestoreOracles) (force : Bool) (p : SnapProject) :
    Sum String (String × String) :=
  if ¬ oc.pathExists p.path then
    Sum.inr (p.name, "Path does not exist")
  else
    let status := oc.gitStatus p.path
    if status ≠ "" ∧ ¬ force then
      Sum.inr (p.name, "Has uncommitted changes (use force=true to override)")
    else
      match oc.checkout p.path p.branch with
      | Except.error e => Sum.inr (p.name, "Failed to checkout: " ++ e)
      | Except.ok _ =>
        match oc.reset p.path p.commit with
        | Except.error e => Sum.inr (p.name, "Failed to reset: " ++ e)
        | Except.ok _ => Sum.inl p.name

/-- The restore loop over the snapshot entries, in snapshot order, producing
the `restored` and `failed` vectors. -/
def restoreLoop (oc : RestoreOracles) (force : Bool) :
    List SnapProject → List String × List (String × String)
  | [] => ([], [])
  | p :: rest =>
    let r := restoreLoop oc force rest
    match restoreStep oc force p with
    | Sum.inl n => (n :: r.1, r.2)
    | Sum.inr x => (r.1, x :: r.2)

/-- The structured result record of `tool_snapshot_restore`. -/
structure RestoreResponse where
  status : String
  restored : List String
  failed : List (String × String)
  restored_count : Nat
  failed_count : Nat
deriving DecidableEq, Repr

/-- Embedding of the per-project part of `tool_snapshot_restore`
(src/main.rs:2163): process every recorded project, collect `restored` and
`failed`, and report `success` exactly when nothing failed. -/
def tool_snapshot_restore (oc : RestoreOracles) (entries : List SnapProject)
    (force : Bool) : RestoreResponse :=
  let rf := restoreLoop oc force entries
  { status := if rf.2 = [] then "success" else "partial",
    restored := rf.1, failed := rf.2,
    restored_count := rf.1.length, failed_count := rf.2.length }

/-- Embedding of the whole `tool_snapshot_restore` call: a missing snapshot
file is a single error (src/main.rs:2151); otherwise the loaded entries are
processed into a structured outcome. -/
def tool_snapshot_restore_full (oc : RestoreOracles) (name : String)
    (snapshot : Option (List SnapProject)) (force : Bool) :
    Except String RestoreResponse :=
  match snapshot with
  | none => Except.error ("Snapshot " ++ name ++ " not found")
  | some entries => Except.ok (tool_snapshot_restore oc entries force)

/-! ## Batch executor (`tool_batch_execute`, src/main.rs:2234) -/

/-- Outcome of spawning the shell command in one project directory: the
captured status/stdout/stderr on a successful spawn, or the spawn error. -/
inductive RunOutcome where
  | ran (success : Bool) (stdout stderr : String)
  | spawnErr (e : String)
deriving DecidableEq, Repr

/-- One entry of the `results` array of `tool_batch_execute`. -/
inductive PResult where
  | pathMissing (project : String)
  | ran (project : String) (success : Bool) (stdout stderr : String)
  | spawnErr (project : String) (e : String)
deriving DecidableEq, Repr

/-- Embedding of the per-project loop of `tool_batch_execute`
(src/main.rs:2279): a missing path records a failure and `continue`s (skipping
the fail-fast check of that iteration); otherwise the command runs and, in
atomic mode, the loop breaks as soon as any failure has been observed. -/
def batchLoop (atomic : Bool) (pathExists : String → Bool)
    (run : ProjectInfo → RunOutcome) :
    List ProjectInfo → Bool → List PResult → List PResult × Bool
  | [], has_failure, acc => (acc, has_failure)
  | p :: rest, has_failure, acc =>
    if ¬ pathExists p.path then
      batchLoop atomic pathExists run rest true (acc ++ [PResult.pathMissing p.name])
    else
      match run p with
      | RunOutcome.ran success stdout stderr =>
          let has_failure' := has_failure || !success
          let acc' := acc ++ [PResult.ran p.name success stdout stderr]
          if atomic && has_failure' then (acc', has_failure')
          else batchLoop atomic pathExists run rest has_failure' acc'
      | RunOutcome.spawnErr e =>
          let acc' := acc ++ [PResult.spawnErr p.name e]
          if atomic then (acc', true)
          else batchLoop atomic pathExists run rest true acc'

/-- The structured result record of `tool_batch_execute`. -/
structure BatchResponse where
  results : List PResult
  has_failure : Bool
  rolled_back : Bool
  rollback_result : Option RestoreResponse
deriving DecidableEq, Repr

/-- The up-front tag filtering of the project set (src/main.rs:2254). -/
def batchFilter (projects : List ProjectInfo) (tag_filter : Option String) :
    List ProjectInfo :=
  match tag_filter with
  | some tag => projects.filter (fun p => p.tags.contains tag)
  | none => projects

/-- The tail of `tool_batch_execute` after the loop (src/main.rs:2326): when
atomic and failed, the rollback restore runs and its error propagates through
`?`; `rolled_back` is whether a rollback result was recorded. -/
def batchFinish (atomic : Bool) (restoreResult : Except String RestoreResponse)
    (rb : List PResult × Bool) : Except String BatchResponse :=
  if atomic && rb.2 then
    match restoreResult with
    | Except.ok r =>
        Except.ok { results := rb.1, has_failure := rb.2,
                    rolled_back := true, rollback_result := some r }
    | Except.error e => Except.error e
  else
    Except.ok { results := rb.1, has_failure := rb.2,
                rolled_back := false, rollback_result := none }

/-- Embedding of `tool_batch_execute` (src/main.rs:2234). The pre-batch
snapshot creation is best-effort and its failure is swallowed, so in atomic
mode the snapshot name is always available; `restoreResult` stands for what
`tool_snapshot_restore` returns for that name with `force = true`, and an
error from it propagates through the `?` operator as the whole call's error. -/
def tool_batch_execute (projects : List ProjectInfo) (tag_filter : Option String)
    (atomic : Bool) (pathExists : String → Bool) (run : ProjectInfo → RunOutcome)
    (restoreResult : Except String RestoreResponse) : Except String BatchResponse :=
  batchFinish atomic restoreResult
    (batchLoop atomic pathExists run (batchFilter projects tag_filter) false [])

/-! ## Specification-side notions -/

/-- Reachability through one or more reverse-dependency edges, the notion the
spec uses to describe the impact closure. -/
inductive ReachPlus (g : DependencyGraph) (x : String) : String → Prop
  | single {b : String} : b ∈ revAdj g x → ReachPlus g x b
  | tail {b c : String} : ReachPlus g x b → c ∈ revAdj g b → ReachPlus g x c

/-- Whether a project passes an optional tag filter. -/
def tagMatch (tag_filter : Option String) (p : ExtendedProjectInfo) : Bool :=
  match tag_filter with
  | none => true
  | some tag => p.tags.contains tag

/-- Pointwise relation between two project lists: same projects in the same
order, except that each project's `depends_on` list may be reordered. -/
def DependsPerm (ps ps' : List ExtendedProjectInfo) : Prop :=
  List.Forall₂
    (fun p q => p.name = q.name ∧ p.depends_on.Perm q.depends_on) ps ps'

/-- Queue discipline of the breadth-first traversal: the depth-1 entries form
a prefix of the queue and every later entry has depth at least 2. -/
def QueueLayered (q : List (String × Nat)) : Prop :=
  ∃ q1 q2, q = q1 ++ q2 ∧ (∀ e ∈ q1, e.2 = 1) ∧ (∀ e ∈ q2, 2 ≤ e.2)

/-- Invariant of the BFS loop of `analyze_project_impact`, for origin `x`. -/
def BfsInv (g : DependencyGraph) (x : String) (s : BfsState) : Prop :=
  (∀ v ∈ s.visited, ReachPlus g x v) ∧
  (∀ e ∈ s.queue, ReachPlus g x e.1) ∧
  (∀ v ∈ s.visited, ∀ w ∈ revAdj g v, w ∈ s.visited ∨ ∃ d, (w, d) ∈ s.queue) ∧
  (∀ d ∈ revAdj g x, d ∈ s.visited ∨ (d, 1) ∈ s.queue) ∧
  s.visited.Nodup ∧
  (∀ t ∈ s.transitive, ¬ t ∈ revAdj g x) ∧
  (∀ t ∈ s.transitive, t ∈ s.visited) ∧
  QueueLayered s.queue

/-! ## Concrete sample inputs used to exercise the definitions -/

/-- Sample project `A`, depending on `B`. -/
def exA : ExtendedProjectInfo :=
  { name := "A", path := "a", repo := "r", tags := [], provides := [], depends_on := ["B"] }

/-- Sample project `B`, with no dependencies. -/
def exB : ExtendedProjectInfo :=
  { name := "B", path := "b", repo := "r", tags := [], provides := [], depends_on := [] }

/-- Sample project `A` with a dangling dependency on the undeclared `D`. -/
def exDangA : ExtendedProjectInfo :=
  { name := "A", path := "a", repo := "r", tags := [], provides := [], depends_on := ["D"] }

/-- Sample project `A` depending on `X` then `Y`. -/
def exC7a : ExtendedProjectInfo :=
  { name := "A", path := "a", repo := "r", tags := [], provides := [],
    depends_on := ["X", "Y"] }

/-- Sample project `A` with the same dependencies in the opposite order. -/
def exC7a2 : ExtendedProjectInfo :=
  { name := "A", path := "a", repo := "r", tags := [], provides := [],
    depends_on := ["Y", "X"] }

/-- Sample project `X` with no dependencies. -/
def exC7x : ExtendedProjectInfo :=
  { name := "X", path := "x", repo := "r", tags := [], provides := [], depends_on := [] }

/-- Sample manifest project tagged `backend`. -/
def exP1 : ProjectInfo := { name := "P1", path := "p1", repo := "r", tags := ["backend"] }

/-- Sample manifest project tagged `frontend`. -/
def exP2 : ProjectInfo := { name := "P2", path := "p2", repo := "r", tags := ["frontend"] }

/-- Another sample manifest project tagged `backend`. -/
def exP3 : ProjectInfo := { name := "P3", path := "p3", repo := "r", tags := ["backend"] }

/-- A recorded snapshot entry whose working copy still exists. -/
def exSnap1 : SnapProject := { name := "P1", path := "p1", branch := "main", commit := "c1" }

/-- A recorded snapshot entry whose path is gone from disk. -/
def exSnap2 : SnapProject :=
  { name := "P2", path := "missing", branch := "main", commit := "c2" }

/-- Restore oracles for the samples: only the path `missing` is absent, every
working copy is clean, and the git commands succeed. -/
def exOracles : RestoreOracles :=
  { pathExists := fun p => p != "missing",
    gitStatus := fun _ => "",
    checkout := fun _ _ => Except.ok (),
    reset := fun _ _ => Except.ok () }

/-- Batch-command outcomes for the samples: the command fails on `P2` and
succeeds everywhere else. -/
def exRun : ProjectInfo → RunOutcome := fun p =>
  if p.name = "P2" then RunOutcome.ran false "" "boom" else RunOutcome.ran true "ok" ""

/-! ## Lemmas about the association-list operations -/

theorem alistLookup_push (m : List (String × List String)) (k v k' : String) :
    alistLookup (alistPush m k v) k' =
      if k' = k then some (lookupD m k [] ++ [v]) else alistLookup m k' := by
  induction m with
  | nil =>
      by_cases h : k' = k
      · subst h; simp [alistPush, alistLookup, lookupD]
      · have h2 : ¬ k = k' := fun hh => h hh.symm
        simp [alistPush, alistLookup, lookupD, h, h2]
  | cons hd tl ih =>
      obtain ⟨kh, vs⟩ := hd
      by_cases hp : kh = k
      · subst hp
        by_cases hl : k' = kh
        · subst hl
          simp [alistPush, alistLookup, lookupD]
        · have hl2 : ¬ kh = k' := fun hh => hl hh.symm
          simp [alistPush, alistLookup, lookupD, hl, hl2]
      · by_cases hl : kh = k'
        · subst hl
          simp [alistPush, alistLookup, lookupD, hp]
        · simp [alistPush, alistLookup, lookupD, hp, hl, ih]

theorem alistLookup_bump (m : List (String × Nat)) (d k : String) :
    alistLookup (bumpInDegree m d) k =
      if k = d then (alistLookup m k).map (fun n => n + 1) else alistLookup m k := by
  induction m with
  | nil => by_cases h : k = d <;> simp [bumpInDegree, alistLookup, h]
  | cons hd tl ih =>
      obtain ⟨kh, n⟩ := hd
      by_cases hp : kh = d
      · subst hp
        by_cases hl : kh = k
        · subst hl
          simp [bumpInDegree, alistLookup]
        · have hl2 : ¬ k = kh := fun hh => hl hh.symm
          simp [bumpInDegree, alistLookup, hl, hl2]
      · by_cases hl : kh = k
        · subst hl
          have hk : ¬ kh = d := hp
          simp [bumpInDegree, alistLookup, hp, hk]
        · simp [bumpInDegree, alistLookup, hp, hl, ih]

theorem alistInsert_notMem {α : Type} (m : List (String × α)) (k : String) (v : α)
    (h : ¬ k ∈ alistKeys m) : alistInsert m k v = m ++ [(k, v)] := by
  induction m with
  | nil => simp [alistInsert]
  | cons hd tl ih =>
      obtain ⟨kh, vh⟩ := hd
      simp only [alistKeys, List.map_cons, List.mem_cons] at h
      push_neg at h
      have h1 : ¬ kh = k := fun hh => h.1 hh.symm
      have h2 : ¬ k ∈ alistKeys tl := by simpa [alistKeys] using h.2
      simp [alistInsert, h1, ih h2]

theorem alistKeys_insert {α : Type} (m : List (String × α)) (k : String) (v : α)
    (h : ¬ k ∈ alistKeys m) : alistKeys (alistInsert m k v) = alistKeys m ++ [k] := by
  rw [alistInsert_notMem m k v h]; simp [alistKeys]

/-- Generic shape of the `HashMap`-building folds: inserting pairwise-distinct
keys produces the corresponding association list in insertion order. -/
theorem foldInsert_nodup {α β : Type} (key : β → String) (val : β → α) :
    ∀ (xs : List β) (m0 : List (String × α)),
      (∀ x ∈ xs, ¬ key x ∈ alistKeys m0) → (xs.map key).Nodup →
      xs.foldl (fun m x => alistInsert m (key x) (val x)) m0 =
        m0 ++ xs.map (fun x => (key x, val x)) := by
  intro xs
  induction xs with
  | nil => intro m0 _ _; simp
  | cons x rest ih =>
      intro m0 hfresh hnd
      simp only [List.map_cons, List.nodup_cons] at hnd
      simp only [List.foldl_cons]
      rw [alistInsert_notMem m0 (key x) (val x) (hfresh x (by simp))]
      rw [ih (m0 ++ [(key x, val x)]) ?fresh hnd.2]
      · simp
      case fresh =>
        intro y hy
        have hxy : ¬ key y = key x := by
          intro hc
          exact hnd.1 (hc ▸ List.mem_map_of_mem key hy)
        have hkeys : alistKeys (m0 ++ [(key x, val x)]) = alistKeys m0 ++ [key x] := by
          simp [alistKeys]
        rw [hkeys]
        simp only [List.mem_append, List.mem_singleton]
        push_neg
        exact ⟨hfresh y (by simp [hy]), hxy⟩

/-! ## Characterization of `build_dependency_graph` -/

/-- The reverse-edges fold in isolation. -/
def revFold (ps : List ExtendedProjectInfo) (re : List (String × List String)) :
    List (String × List String) :=
  ps.foldl (fun re2 p => p.depends_on.foldl (fun re3 d => alistPush re3 d p.name) re2) re

theorem innerRevFold (deps : List String) (n : String) :
    ∀ g : DependencyGraph,
      deps.foldl (fun g2 dep => { g2 with reverse_edges := alistPush g2.reverse_edges dep n }) g =
        { g with reverse_edges := deps.foldl (fun re d => alistPush re d n) g.reverse_edges } := by
  induction deps with
  | nil => intro g; rfl
  | cons d rest ih =>
      intro g
      simp only [List.foldl_cons]
      rw [ih]

theorem buildStep_components (g : DependencyGraph) (p : ExtendedProjectInfo) :
    buildStep g p =
      { nodes := alistInsert g.nodes p.name p,
        edges := alistInsert g.edges p.name p.depends_on,
        reverse_edges := p.depends_on.foldl (fun re d => alistPush re d p.name) g.reverse_edges } :=
  innerRevFold p.depends_on p.name
    ⟨alistInsert g.nodes p.name p, alistInsert g.edges p.name p.depends_on, g.reverse_edges⟩

theorem build_foldl_components (ps : List ExtendedProjectInfo) :
    ∀ g : DependencyGraph,
      ps.foldl buildStep g =
        { nodes := ps.foldl (fun m p => alistInsert m p.name p) g.nodes,
          edges := ps.foldl (fun m p => alistInsert m p.name p.depends_on) g.edges,
          reverse_edges := revFold ps g.reverse_edges } := by
  induction ps with
  | nil => intro g; simp [revFold]
  | cons p rest ih =>
      intro g
      simp only [List.foldl_cons]
      rw [buildStep_components, ih]
      simp [revFold]

theorem build_components (ps : List ExtendedProjectInfo) :
    build_dependency_graph ps =
      { nodes := ps.foldl (fun m p => alistInsert m p.name p) [],
        edges := ps.foldl (fun m p => alistInsert m p.name p.depends_on) [],
        reverse_edges := revFold ps [] } := by
  unfold build_dependency_graph
  rw [build_foldl_components]

theorem mem_pushFold (deps : List String) (n a b : String) :
    ∀ re, b ∈ lookupD (deps.foldl (fun re2 d => alistPush re2 d n) re) a [] ↔
      b ∈ lookupD re a [] ∨ (a ∈ deps ∧ b = n) := by
  induction deps with
  | nil => intro re; simp
  | cons d rest ih =>
      intro re
      simp only [List.foldl_cons]
      rw [ih]
      have hlk : lookupD (alistPush re d n) a [] =
          if a = d then lookupD re d [] ++ [n] else lookupD re a [] := by
        by_cases h : a = d
        · simp [lookupD, alistLookup_push, h]
        · simp [lookupD, alistLookup_push, h]
      rw [hlk]
      by_cases h : a = d
      · subst h
        rw [if_pos rfl]
        constructor
        · rintro (hm | ⟨ha, hb⟩)
          · rcases List.mem_append.mp hm with hm1 | hm2
            · exact Or.inl hm1
            · exact Or.inr ⟨List.mem_cons_self a rest, by simpa using hm2⟩
          · exact Or.inr ⟨List.mem_cons_of_mem a ha, hb⟩
        · rintro (hm | ⟨ha, hb⟩)
          · exact Or.inl (List.mem_append.mpr (Or.inl hm))
          · exact Or.inl (List.mem_append.mpr (Or.inr (by simp [hb])))
      · rw [if_neg h]
        constructor
        · rintro (hm | ⟨ha, hb⟩)
          · exact Or.inl hm
          · exact Or.inr ⟨List.mem_cons_of_mem d ha, hb⟩
        · rintro (hm | ⟨ha, hb⟩)
          · exact Or.inl hm
          · rcases List.mem_cons.mp ha with ha1 | ha2
            · exact absurd ha1 h
            · exact Or.inr ⟨ha2, hb⟩

theorem mem_revFold (ps : List ExtendedProjectInfo) (a b : String) :
    ∀ re, b ∈ lookupD (revFold ps re) a [] ↔
      b ∈ lookupD re a [] ∨ ∃ p ∈ ps, b = p.name ∧ a ∈ p.depends_on := by
  induction ps with
  | nil => intro re; simp [revFold]
  | cons p rest ih =>
      intro re
      have hstep : revFold (p :: rest) re =
          revFold rest (p.depends_on.foldl (fun re2 d => alistPush re2 d p.name) re) := by
        simp [revFold]
      rw [hstep, ih, mem_pushFold]
      constructor
      · rintro (⟨h | ⟨hd, hb⟩⟩ | ⟨q, hq, hbq, haq⟩)
        · exact Or.inl h
        · exact Or.inr ⟨p, by simp, hb, hd⟩
        · exact Or.inr ⟨q, by simp [hq], hbq, haq⟩
      · rintro (h | ⟨q, hq, hbq, haq⟩)
        · exact Or.inl (Or.inl h)
        · rcases List.mem_cons.mp hq with hq1 | hq2
          · subst hq1
            exact Or.inl (Or.inr ⟨haq, hbq⟩)
          · exact Or.inr ⟨q, hq2, hbq, haq⟩

/-- Membership in a reverse-adjacency list of a built graph: exactly the names
of the projects that declare the key among their dependencies. -/
theorem revAdj_build_mem (ps : List ExtendedProjectInfo) (a b : String) :
    b ∈ revAdj (build_dependency_graph ps) a ↔
      ∃ p ∈ ps, b = p.name ∧ a ∈ p.depends_on := by
  unfold revAdj
  rw [build_components]
  have := mem_revFold ps a b []
  simpa [lookupD, alistLookup] using this

/-! ## Lemmas about the BFS loop of `analyze_project_impact` -/

theorem queueLayered_tail (e : (String × Nat)) (q : List (String × Nat))
    (h : QueueLayered (e :: q)) : QueueLayered q := by
  obtain ⟨q1, q2, heq, h1, h2⟩ := h
  cases q1 with
  | nil =>
      cases q2 with
      | nil => simp at heq
      | cons a q2t =>
          simp only [List.nil_append] at heq
          refine ⟨[], q2t, ?_, by simp, ?_⟩
          · simpa using congrArg List.tail heq
          · intro x hx
            exact h2 x (by simp [heq.symm ▸ List.mem_cons_of_mem a hx, List.mem_cons_of_mem a hx])
  | cons a q1t =>
      simp only [List.cons_append] at heq
      refine ⟨q1t, q2, (by simpa using congrArg List.tail heq), ?_, h2⟩
      intro x hx
      exact h1 x (List.mem_cons_of_mem a hx)

theorem queueLayered_depth_pos (q : List (String × Nat)) (h : QueueLayered q) :
    ∀ e ∈ q, 1 ≤ e.2 := by
  obtain ⟨q1, q2, heq, h1, h2⟩ := h
  intro e he
  rw [heq] at he
  rcases List.mem_append.mp he with h | h
  · exact (h1 e h).ge
  · exact le_trans (by omega) (h2 e h)

theorem resum_list_mono (v v' : List String) (h : ∀ a ∈ v, a ∈ v') :
    ∀ re : List (String × List String),
      (re.map (fun kv => if kv.1 ∈ v' then 0 else kv.2.length)).sum
        ≤ (re.map (fun kv => if kv.1 ∈ v then 0 else kv.2.length)).sum := by
  intro re
  induction re with
  | nil => simp
  | cons kv rest ih =>
      simp only [List.map_cons, List.sum_cons]
      have hhead : (if kv.1 ∈ v' then 0 else kv.2.length)
          ≤ (if kv.1 ∈ v then 0 else kv.2.length) := by
        by_cases hk : kv.1 ∈ v
        · simp [hk, h kv.1 hk]
        · by_cases hk' : kv.1 ∈ v' <;> simp [hk, hk']
      omega

theorem resum_visit_aux (c : String) (v : List String) (hc : ¬ c ∈ v) :
    ∀ re : List (String × List String),
      (re.map (fun kv => if kv.1 ∈ v ++ [c] then 0 else kv.2.length)).sum
          + ((alistLookup re c).getD []).length
        ≤ (re.map (fun kv => if kv.1 ∈ v then 0 else kv.2.length)).sum := by
  intro re
  induction re with
  | nil => simp [alistLookup]
  | cons kv rest ih =>
      obtain ⟨k, vs⟩ := kv
      by_cases hk : k = c
      · subst hk
        have h1 : k ∈ v ++ [k] := by simp
        have hlook : alistLookup ((k, vs) :: rest) k = some vs := by
          simp [alistLookup]
        rw [hlook]
        simp only [List.map_cons, List.sum_cons, Option.getD_some]
        rw [if_pos h1, if_neg hc]
        have hmono := resum_list_mono v (v ++ [k])
          (fun a ha => List.mem_append.mpr (Or.inl ha)) rest
        omega
      · have hset : (k ∈ v ++ [c]) ↔ (k ∈ v) := by
          simp [List.mem_append, hk]
        simp only [List.map_cons, List.sum_cons, alistLookup, if_neg hk]
        by_cases h : k ∈ v
        · rw [if_pos (hset.mpr h), if_pos h]
          omega
        · rw [if_neg (fun hh => h (hset.mp hh)), if_neg h]
          omega

theorem reSum_visit (g : DependencyGraph) (c : String) (v : List String) (hc : ¬ c ∈ v) :
    reSum g (v ++ [c]) + (revAdj g c).length ≤ reSum g v := by
  have := resum_visit_aux c v hc g.reverse_edges
  simpa [reSum, revAdj, lookupD] using this

theorem reSum_mono (g : DependencyGraph) (v v' : List String) (h : ∀ a ∈ v, a ∈ v') :
    reSum g v' ≤ reSum g v :=
  resum_list_mono v v' h g.reverse_edges

theorem bfsVisit_bound (g : DependencyGraph) (c : String) (d : Nat) (s : BfsState)
    (rest : List (String × Nat)) (hq : s.queue = (c, d) :: rest) :
    bfsBound g (bfsVisit g c d s rest) < bfsBound g s := by
  unfold bfsVisit bfsBound
  by_cases hv : c ∈ s.visited
  · rw [if_pos hv]
    simp only [hq]
    simp [List.length_cons]
  · rw [if_neg hv]
    simp only []
    have hp : ((revAdj g c).filter (fun d2 => ¬ d2 ∈ s.visited ++ [c])).length
        ≤ (revAdj g c).length := List.length_filter_le _ _
    have hr := reSum_visit g c s.visited hv
    simp only [hq, List.length_append, List.length_cons, List.length_map]
    omega

theorem bfsLoop_queue_nil (g : DependencyGraph) (fuel : Nat) (s : BfsState)
    (h : s.queue = []) : bfsLoop g fuel s = s := by
  cases fuel <;> simp [bfsLoop, h]

theorem bfsLoop_succ_cons (g : DependencyGraph) (n : Nat) (s : BfsState)
    (c : String) (d : Nat) (rest : List (String × Nat)) (hq : s.queue = (c, d) :: rest) :
    bfsLoop g (n + 1) s = bfsLoop g n (bfsVisit g c d s rest) := by
  simp [bfsLoop, hq]

theorem bfsLoop_extra (g : DependencyGraph) :
    ∀ fuel extra (s : BfsState), bfsBound g s ≤ fuel →
      bfsLoop g (fuel + extra) s = bfsLoop g fuel s := by
  intro fuel
  induction fuel with
  | zero =>
      intro extra s h
      have hq : s.queue = [] := by
        unfold bfsBound at h
        cases hqe : s.queue with
        | nil => rfl
        | cons e rest => rw [hqe] at h; simp at h
      rw [bfsLoop_queue_nil g _ s hq, bfsLoop_queue_nil g _ s hq]
  | succ f ih =>
      intro extra s h
      cases hq : s.queue with
      | nil => rw [bfsLoop_queue_nil g _ s hq, bfsLoop_queue_nil g _ s hq]
      | cons e rest =>
          obtain ⟨c, d⟩ := e
          have hb : bfsBound g (bfsVisit g c d s rest) ≤ f :=
            Nat.lt_succ_iff.mp (lt_of_lt_of_le (bfsVisit_bound g c d s rest hq) h)
          have harith : f + 1 + extra = (f + extra) + 1 := by omega
          rw [harith, bfsLoop_succ_cons g (f + extra) s c d rest hq,
            bfsLoop_succ_cons g f s c d rest hq, ih extra _ hb]

theorem bfsLoop_drain (g : DependencyGraph) :
    ∀ fuel (s : BfsState), bfsBound g s ≤ fuel → (bfsLoop g fuel s).queue = [] := by
  intro fuel
  induction fuel with
  | zero =>
      intro s h
      have hq : s.queue = [] := by
        unfold bfsBound at h
        cases hqe : s.queue with
        | nil => rfl
        | cons e rest => rw [hqe] at h; simp at h
      rw [bfsLoop_queue_nil g _ s hq]; exact hq
  | succ f ih =>
      intro s h
      cases hq : s.queue with
      | nil => rw [bfsLoop_queue_nil g _ s hq]; exact hq
      | cons e rest =>
          obtain ⟨c, d⟩ := e
          have hb : bfsBound g (bfsVisit g c d s rest) ≤ f :=
            Nat.lt_succ_iff.mp (lt_of_lt_of_le (bfsVisit_bound g c d s rest hq) h)
          rw [bfsLoop_succ_cons g f s c d rest hq]
          exact ih _ hb

theorem bfsVisit_mem (g : DependencyGraph) (c : String) (d : Nat) (s : BfsState)
    (rest : List (String × Nat)) (hv : c ∈ s.visited) :
    bfsVisit g c d s rest = { s with queue := rest } := by
  unfold bfsVisit
  rw [if_pos hv]

theorem bfsVisit_not_mem (g : DependencyGraph) (c : String) (d : Nat) (s : BfsState)
    (rest : List (String × Nat)) (hv : ¬ c ∈ s.visited) :
    bfsVisit g c d s rest =
      { transitive := if 1 < d then s.transitive ++ [c] else s.transitive,
        visited := s.visited ++ [c],
        queue := rest ++
          ((revAdj g c).filter (fun e => ¬ e ∈ s.visited ++ [c])).map
            (fun e => (e, d + 1)) } := by
  unfold bfsVisit
  rw [if_neg hv]

theorem bfsVisit_inv (g : DependencyGraph) (x c : String) (d : Nat) (s : BfsState)
    (rest : List (String × Nat)) (hq : s.queue = (c, d) :: rest)
    (h : BfsInv g x s) : BfsInv g x (bfsVisit g c d s rest) := by
  obtain ⟨h1, h2, h3, h4, h5, h6, h7, h8⟩ := h
  have h8' : QueueLayered ((c, d) :: rest) := hq ▸ h8
  have hlayer_tail : QueueLayered rest := queueLayered_tail (c, d) rest h8'
  by_cases hv : c ∈ s.visited
  · rw [bfsVisit_mem g c d s rest hv]
    refine ⟨h1, ?_, ?_, ?_, h5, h6, h7, hlayer_tail⟩
    · intro e he
      exact h2 e (by rw [hq]; exact List.mem_cons_of_mem _ he)
    · intro u hu w hw
      rcases h3 u hu w hw with hvis | ⟨dd, hdd⟩
      · exact Or.inl hvis
      · rw [hq] at hdd
        rcases List.mem_cons.mp hdd with heq | hmem
        · have hwc : w = c := congrArg Prod.fst heq
          exact Or.inl (hwc ▸ hv)
        · exact Or.inr ⟨dd, hmem⟩
    · intro dd hdd
      rcases h4 dd hdd with hvis | hmem
      · exact Or.inl hvis
      · rw [hq] at hmem
        rcases List.mem_cons.mp hmem with heq | hmem2
        · have hdc : dd = c := congrArg Prod.fst heq
          exact Or.inl (hdc ▸ hv)
        · exact Or.inr hmem2
  · rw [bfsVisit_not_mem g c d s rest hv]
    have hreach_c : ReachPlus g x c := h2 (c, d) (by rw [hq]; exact List.mem_cons_self _ _)
    have hd1 : 1 ≤ d := by
      have := queueLayered_depth_pos _ h8' (c, d) (List.mem_cons_self _ _)
      simpa using this
    have hpush_depth : ∀ e ∈ ((revAdj g c).filter
        (fun e2 => ¬ e2 ∈ s.visited ++ [c])).map (fun e2 => (e2, d + 1)), e.2 = d + 1 := by
      intro e he
      rcases List.mem_map.mp he with ⟨w, _, hwe⟩
      rw [← hwe]
    refine ⟨?_, ?_, ?_, ?_, ?_, ?_, ?_, ?_⟩
    · intro v hvv
      rcases List.mem_append.mp hvv with hv1 | hv2
      · exact h1 v hv1
      · have : v = c := by simpa using hv2
        exact this ▸ hreach_c
    · intro e he
      rcases List.mem_append.mp he with he1 | he2
      · exact h2 e (by rw [hq]; exact List.mem_cons_of_mem _ he1)
      · rcases List.mem_map.mp he2 with ⟨w, hwmem, hwe⟩
        have hwadj : w ∈ revAdj g c := (List.mem_filter.mp hwmem).1
        have : e.1 = w := by rw [← hwe]
        exact this ▸ ReachPlus.tail hreach_c hwadj
    · intro u hu w hw
      rcases List.mem_append.mp hu with hu1 | hu2
      · rcases h3 u hu1 w hw with hvis | ⟨dd, hdd⟩
        · exact Or.inl (List.mem_append.mpr (Or.inl hvis))
        · rw [hq] at hdd
          rcases List.mem_cons.mp hdd with heq | hmem
          · have hwc : w = c := congrArg Prod.fst heq
            exact Or.inl (List.mem_append.mpr (Or.inr (by simp [hwc])))
          · exact Or.inr ⟨dd, List.mem_append.mpr (Or.inl hmem)⟩
      · have huc : u = c := by simpa using hu2
        subst huc
        by_cases hwv : w ∈ s.visited ++ [u]
        · exact Or.inl hwv
        · refine Or.inr ⟨d + 1, List.mem_append.mpr (Or.inr ?_)⟩
          apply List.mem_map_of_mem
          rw [List.mem_filter]
          exact ⟨hw, by simpa using hwv⟩
    · intro dd hdd
      rcases h4 dd hdd with hvis | hmem
      · exact Or.inl (List.mem_append.mpr (Or.inl hvis))
      · rw [hq] at hmem
        rcases List.mem_cons.mp hmem with heq | hmem2
        · have hdc : dd = c := congrArg Prod.fst heq
          exact Or.inl (List.mem_append.mpr (Or.inr (by simp [hdc])))
        · exact Or.inr (List.mem_append.mpr (Or.inl hmem2))
    · refine List.Nodup.append h5 (List.nodup_singleton c) ?_
      intro a ha hb
      rw [List.mem_singleton] at hb
      subst hb
      exact hv ha
    · intro t ht
      by_cases hdlt : 1 < d
      · rw [if_pos hdlt] at ht
        rcases List.mem_append.mp ht with ht1 | ht2
        · exact h6 t ht1
        · have htc : t = c := by simpa using ht2
          subst htc
          intro hc
          rcases h4 t hc with hvis | hmem
          · exact hv hvis
          · rcases List.mem_cons.mp (hq ▸ hmem) with heq | hmem2
            · have : (1 : Nat) = d := congrArg Prod.snd heq
              omega
            · obtain ⟨q1, q2, heq2, hq1, hq2⟩ := h8'
              cases q1 with
              | nil =>
                  simp only [List.nil_append] at heq2
                  have hin : (t, 1) ∈ q2 := by
                    rw [← heq2]
                    exact List.mem_cons_of_mem _ hmem2
                  have := hq2 (t, 1) hin
                  simp at this
              | cons a q1t =>
                  simp only [List.cons_append] at heq2
                  have ha : a = (t, d) := (List.cons.injEq _ _ _ _ ▸ heq2).1.symm
                  have had : a.2 = 1 := hq1 a (List.mem_cons_self _ _)
                  rw [ha] at had
                  simp at had
                  omega
      · rw [if_neg hdlt] at ht
        exact h6 t ht
    · intro t ht
      by_cases hdlt : 1 < d
      · rw [if_pos hdlt] at ht
        rcases List.mem_append.mp ht with ht1 | ht2
        · exact List.mem_append.mpr (Or.inl (h7 t ht1))
        · exact List.mem_append.mpr (Or.inr ht2)
      · rw [if_neg hdlt] at ht
        exact List.mem_append.mpr (Or.inl (h7 t ht))
    · obtain ⟨q1, q2, heq2, hq1, hq2⟩ := h8'
      cases q1 with
      | nil =>
          simp only [List.nil_append] at heq2
          refine ⟨[], rest ++
            ((revAdj g c).filter (fun e2 => ¬ e2 ∈ s.visited ++ [c])).map
              (fun e2 => (e2, d + 1)), by simp, by simp, ?_⟩
          intro e he
          rcases List.mem_append.mp he with he1 | he2
          · exact hq2 e (by rw [← heq2]; exact List.mem_cons_of_mem _ he1)
          · have hd2 : 2 ≤ d := by
              have : (c, d) ∈ q2 := by rw [← heq2]; exact List.mem_cons_self _ _
              simpa using hq2 (c, d) this
            rw [hpush_depth e he2]
            omega
      | cons a q1t =>
          simp only [List.cons_append] at heq2
          have ha : a = (c, d) := (List.cons.injEq _ _ _ _ ▸ heq2).1.symm
          have hrest : rest = q1t ++ q2 := (List.cons.injEq _ _ _ _ ▸ heq2).2
          refine ⟨q1t, q2 ++
            ((revAdj g c).filter (fun e2 => ¬ e2 ∈ s.visited ++ [c])).map
              (fun e2 => (e2, d + 1)), ?_, ?_, ?_⟩
          · rw [hrest, List.append_assoc]
          · intro e he
            exact hq1 e (List.mem_cons_of_mem a he)
          · intro e he
            rcases List.mem_append.mp he with he1 | he2
            · exact hq2 e he1
            · have had : a.2 = 1 := hq1 a (List.mem_cons_self _ _)
              rw [ha] at had
              simp only at had
              rw [hpush_depth e he2, had]

theorem bfsLoop_inv (g : DependencyGraph) (x : String) :
    ∀ fuel (s : BfsState), BfsInv g x s → BfsInv g x (bfsLoop g fuel s) := by
  intro fuel
  induction fuel with
  | zero => intro s h; simpa [bfsLoop] using h
  | succ f ih =>
      intro s h
      cases hq : s.queue with
      | nil => rw [bfsLoop_queue_nil g _ s hq]; exact h
      | cons e rest =>
          obtain ⟨c, d⟩ := e
          rw [bfsLoop_succ_cons g f s c d rest hq]
          exact ih _ (bfsVisit_inv g x c d s rest hq h)

theorem impactInit_inv (g : DependencyGraph) (x : String) :
    BfsInv g x
      { transitive := [], visited := [],
        queue := (revAdj g x).map (fun e => (e, 1)) } := by
  refine ⟨by simp, ?_, by simp, ?_, List.nodup_nil, by simp, by simp, ?_⟩
  · intro e he
    rcases List.mem_map.mp he with ⟨w, hw, hwe⟩
    have : e.1 = w := by rw [← hwe]
    exact this ▸ ReachPlus.single hw
  · intro e he
    exact Or.inr (List.mem_map_of_mem _ he)
  · refine ⟨(revAdj g x).map (fun e => (e, 1)), [], by simp, ?_, by simp⟩
    intro e he
    rcases List.mem_map.mp he with ⟨w, _, hwe⟩
    rw [← hwe]

theorem impactRun_spec (g : DependencyGraph) (x : String) :
    BfsInv g x (impactRun g x) ∧ (impactRun g x).queue = [] := by
  unfold impactRun
  exact ⟨bfsLoop_inv g x _ _ (impactInit_inv g x),
    bfsLoop_drain g _ _ (le_refl _)⟩

/-- The visited set of the impact BFS is exactly the set of nodes reachable
from the origin through one or more reverse-dependency edges. -/
theorem impactRun_visited_iff (g : DependencyGraph) (x y : String) :
    y ∈ (impactRun g x).visited ↔ ReachPlus g x y := by
  obtain ⟨⟨h1, h2, h3, h4, h5, h6, h7, h8⟩, hq⟩ := impactRun_spec g x
  constructor
  · exact h1 y
  · intro hr
    induction hr with
    | single hb =>
        rcases h4 _ hb with hvis | hmem
        · exact hvis
        · rw [hq] at hmem
          simp at hmem
    | tail hr hb ihr =>
        rcases h3 _ ihr _ hb with hvis | ⟨dd, hmem⟩
        · exact hvis
        · rw [hq] at hmem
          simp at hmem

/-! ## Lemmas about `topological_sort` -/

theorem bumpList_lookup (l : List String) (n : String) :
    ∀ m, alistLookup (l.foldl bumpInDegree m) n =
      (alistLookup m n).map (fun v => v + l.count n) := by
  induction l with
  | nil =>
      intro m
      cases h : alistLookup m n <;> simp [h]
  | cons d rest ih =>
      intro m
      simp only [List.foldl_cons]
      rw [ih, alistLookup_bump]
      by_cases h : n = d
      · subst h
        rw [if_pos rfl]
        cases hm : alistLookup m n with
        | none => simp
        | some v =>
            simp only [Option.map_some, Option.map_some']
            have : rest.count n + 1 = (n :: rest).count n := by
              simp [List.count_cons]
            congr 1
            rw [List.count_cons]
            simp
            omega
      · have hc : ¬ d = n := fun hh => h hh.symm
        rw [if_neg h]
        cases hm : alistLookup m n <;> simp [hm, List.count_cons, hc]

theorem bumpPairs_lookup (pairs : List (String × List String)) (n : String) :
    ∀ m, alistLookup (pairs.foldl (fun m2 kv => kv.2.foldl bumpInDegree m2) m) n =
      (alistLookup m n).map (fun v => v + (pairs.map (fun kv => kv.2.count n)).sum) := by
  induction pairs with
  | nil =>
      intro m
      cases h : alistLookup m n <;> simp [h]
  | cons kv rest ih =>
      intro m
      simp only [List.foldl_cons]
      rw [ih, bumpList_lookup]
      cases hm : alistLookup m n <;> simp [hm, Nat.add_assoc]

theorem alistKeys_bump (m : List (String × Nat)) (d : String) :
    alistKeys (bumpInDegree m d) = alistKeys m := by
  induction m with
  | nil => rfl
  | cons kv rest ih =>
      obtain ⟨k, v⟩ := kv
      by_cases h : k = d
      · simp [bumpInDegree, alistKeys, h]
      · simp only [bumpInDegree, if_neg h, alistKeys, List.map_cons]
        rw [show List.map (fun kv => kv.1) (bumpInDegree rest d) =
          alistKeys (bumpInDegree rest d) from rfl, ih]
        rfl

theorem lookup_of_mem_nodup {α : Type} (m : List (String × α)) (k : String) (v : α)
    (hm : (k, v) ∈ m) (hnd : (alistKeys m).Nodup) : alistLookup m k = some v := by
  induction m with
  | nil => simp at hm
  | cons kv rest ih =>
      obtain ⟨kh, vh⟩ := kv
      simp only [alistKeys, List.map_cons, List.nodup_cons] at hnd
      rcases List.mem_cons.mp hm with heq | hmem
      · have hk : k = kh := congrArg Prod.fst heq
        have hv : v = vh := congrArg Prod.snd heq
        subst hk
        simp [alistLookup, hv]
      · have hne : ¬ kh = k := by
          intro hh
          subst hh
          exact hnd.1 (by simpa [alistKeys] using List.mem_map_of_mem (fun kv => kv.1) hmem)
        simp only [alistLookup, if_neg hne]
        exact ih hmem (by simpa [alistKeys] using hnd.2)

theorem mem_lookup_exists {α : Type} (m : List (String × α)) (k : String) (v : α)
    (hm : (k, v) ∈ m) : ∃ w, alistLookup m k = some w := by
  induction m with
  | nil => simp at hm
  | cons kv rest ih =>
      obtain ⟨kh, vh⟩ := kv
      by_cases h : kh = k
      · exact ⟨vh, by simp [alistLookup, h]⟩
      · rcases List.mem_cons.mp hm with heq | hmem
        · exact absurd (congrArg Prod.fst heq).symm h
        · simpa [alistLookup, h] using ih hmem

theorem build_nodes_eq (ps : List ExtendedProjectInfo)
    (h : (ps.map ExtendedProjectInfo.name).Nodup) :
    (build_dependency_graph ps).nodes = ps.map (fun p => (p.name, p)) := by
  rw [build_components]
  have := foldInsert_nodup (fun p : ExtendedProjectInfo => p.name) (fun p => p) ps []
    (by simp [alistKeys]) (by simpa using h)
  simpa using this

theorem build_edges_eq (ps : List ExtendedProjectInfo)
    (h : (ps.map ExtendedProjectInfo.name).Nodup) :
    (build_dependency_graph ps).edges = ps.map (fun p => (p.name, p.depends_on)) := by
  rw [build_components]
  have := foldInsert_nodup (fun p : ExtendedProjectInfo => p.name)
    (fun p => p.depends_on) ps [] (by simp [alistKeys]) (by simpa using h)
  simpa using this

theorem init_in_degree_eq (ps : List ExtendedProjectInfo)
    (h : (ps.map ExtendedProjectInfo.name).Nodup) :
    initInDegree (ps.map (fun p => (p.name, p))) = ps.map (fun p => (p.name, 0)) := by
  unfold initInDegree
  have := foldInsert_nodup (fun kv : String × ExtendedProjectInfo => kv.1)
    (fun _ => (0 : Nat)) (ps.map (fun p => (p.name, p))) []
    (by simp [alistKeys]) (by simpa [List.map_map, Function.comp] using h)
  simpa [List.map_map, Function.comp] using this

theorem lookup_map_zero (ps : List ExtendedProjectInfo) (n : String) :
    alistLookup (ps.map (fun p => (p.name, (0 : Nat)))) n =
      if n ∈ ps.map ExtendedProjectInfo.name then some 0 else none := by
  induction ps with
  | nil => simp [alistLookup]
  | cons p rest ih =>
      by_cases h : p.name = n
      · simp [alistLookup, h]
      · have h2 : ¬ n = p.name := fun hh => h hh.symm
        simp only [List.map_cons, alistLookup, if_neg h, ih, List.mem_cons]
        by_cases hm : n ∈ rest.map ExtendedProjectInfo.name
        · rw [if_pos hm, if_pos (Or.inr hm)]
        · rw [if_neg hm, if_neg (by rintro (hc | hc); exact h2 hc; exact hm hc)]

theorem calcInDegree_lookup (ps : List ExtendedProjectInfo)
    (h : (ps.map ExtendedProjectInfo.name).Nodup) (n : String) :
    alistLookup (calcInDegree (build_dependency_graph ps)) n =
      if n ∈ ps.map ExtendedProjectInfo.name
      then some ((ps.map (fun p => p.depends_on.count n)).sum) else none := by
  unfold calcInDegree
  rw [build_edges_eq ps h, build_nodes_eq ps h, init_in_degree_eq ps h,
    bumpPairs_lookup, lookup_map_zero]
  by_cases hm : n ∈ ps.map ExtendedProjectInfo.name
  · rw [if_pos hm, if_pos hm]
    simp [List.map_map, Function.comp_def]
  · rw [if_neg hm, if_neg hm]
    simp

theorem alistKeys_bumpList (l : List String) :
    ∀ m, alistKeys (l.foldl bumpInDegree m) = alistKeys m := by
  induction l with
  | nil => intro m; rfl
  | cons d rest ih =>
      intro m
      simp only [List.foldl_cons]
      rw [ih, alistKeys_bump]

theorem alistKeys_bumpPairs (pairs : List (String × List String)) :
    ∀ m, alistKeys (pairs.foldl (fun m2 kv => kv.2.foldl bumpInDegree m2) m) = alistKeys m := by
  induction pairs with
  | nil => intro m; rfl
  | cons kv rest ih =>
      intro m
      simp only [List.foldl_cons]
      rw [ih, alistKeys_bumpList]

theorem calcInDegree_keys (ps : List ExtendedProjectInfo)
    (h : (ps.map ExtendedProjectInfo.name).Nodup) :
    alistKeys (calcInDegree (build_dependency_graph ps)) =
      ps.map ExtendedProjectInfo.name := by
  unfold calcInDegree
  rw [build_edges_eq ps h, build_nodes_eq ps h, init_in_degree_eq ps h, alistKeys_bumpPairs]
  simp [alistKeys, List.map_map, Function.comp]

theorem seed_zero_lookup (ps : List ExtendedProjectInfo)
    (h : (ps.map ExtendedProjectInfo.name).Nodup) (n : String)
    (hn : n ∈ topoSeeds (calcInDegree (build_dependency_graph ps))) :
    alistLookup (calcInDegree (build_dependency_graph ps)) n = some 0 ∧
      n ∈ ps.map ExtendedProjectInfo.name := by
  unfold topoSeeds at hn
  rcases List.mem_map.mp hn with ⟨kv, hkv, hkvn⟩
  have hmem := List.mem_filter.mp hkv
  have hz : kv.2 = 0 := by simpa using hmem.2
  have hkv0 : (n, 0) ∈ calcInDegree (build_dependency_graph ps) := by
    have : kv = (n, 0) := Prod.ext hkvn hz
    exact this ▸ hmem.1
  have hnodup : (alistKeys (calcInDegree (build_dependency_graph ps))).Nodup := by
    rw [calcInDegree_keys ps h]; exact h
  refine ⟨lookup_of_mem_nodup _ n 0 hkv0 hnodup, ?_⟩
  rw [← calcInDegree_keys ps h]
  exact hkvn ▸ List.mem_map_of_mem (fun kv => kv.1) hmem.1

theorem seed_no_rev (ps : List ExtendedProjectInfo)
    (h : (ps.map ExtendedProjectInfo.name).Nodup) (n : String)
    (hn : n ∈ topoSeeds (calcInDegree (build_dependency_graph ps))) :
    lookupD (build_dependency_graph ps).reverse_edges n [] = [] := by
  obtain ⟨hzero, hmem⟩ := seed_zero_lookup ps h n hn
  rw [calcInDegree_lookup ps h n, if_pos hmem] at hzero
  have hsum : (ps.map (fun p => p.depends_on.count n)).sum = 0 := by
    have := Option.some.injEq .. ▸ hzero
    omega
  have hcount : ∀ p ∈ ps, p.depends_on.count n = 0 := by
    intro p hp
    have := List.sum_eq_zero_iff.mp hsum
    exact this _ (List.mem_map_of_mem _ hp)
  rw [List.eq_nil_iff_forall_not_mem]
  intro b hb
  have : b ∈ revAdj (build_dependency_graph ps) n := hb
  rcases (revAdj_build_mem ps n b).mp this with ⟨p, hp, _, hnp⟩
  exact absurd (hcount p hp) (by simpa [List.count_eq_zero] using hnp)

theorem topoStep_no_dependents (g : DependencyGraph) (tagf : Option String)
    (current : String) (s : TopoState) (rest : List String)
    (h : lookupD g.reverse_edges current [] = []) :
    topoStep g tagf current s rest =
      { s with
        queue := rest
        result := if tagInclude g tagf current then s.result ++ [current]
          else s.result } := by
  unfold topoStep
  cases hl : alistLookup g.reverse_edges current with
  | none => rfl
  | some vs =>
      have hvs : vs = [] := by simpa [lookupD, hl] using h
      subst hvs
      rfl

theorem topoLoop_no_deps (g : DependencyGraph) (tagf : Option String) :
    ∀ (q : List String) (fuel : Nat) (deg : List (String × Nat)) (res : List String)
      (uf : Bool),
      (∀ n ∈ q, lookupD g.reverse_edges n [] = []) → q.length ≤ fuel →
      topoLoop g tagf fuel ⟨deg, q, res, uf⟩ =
        ⟨deg, [], res ++ q.filter (fun n => tagInclude g tagf n), uf⟩ := by
  intro q
  induction q with
  | nil =>
      intro fuel deg res uf _ _
      cases fuel <;> simp [topoLoop]
  | cons n qt ih =>
      intro fuel deg res uf hrev hlen
      cases fuel with
      | zero => simp at hlen
      | succ f =>
          have hstep : topoLoop g tagf (f + 1) ⟨deg, n :: qt, res, uf⟩ =
              topoLoop g tagf f (topoStep g tagf n ⟨deg, n :: qt, res, uf⟩ qt) := by
            simp [topoLoop]
          rw [hstep, topoStep_no_dependents g tagf n _ qt (hrev n (by simp))]
          have hres := ih f deg
            (if tagInclude g tagf n then res ++ [n] else res) uf
            (fun m hm => hrev m (List.mem_cons_of_mem n hm)) (by simpa using hlen)
          rw [hres]
          by_cases hinc : tagInclude g tagf n
          · simp [List.filter_cons, hinc]
          · simp [List.filter_cons, hinc]

theorem topoRun_nodup (ps : List ExtendedProjectInfo)
    (h : (ps.map ExtendedProjectInfo.name).Nodup) (tagf : Option String) :
    topoRun (build_dependency_graph ps) tagf =
      ⟨calcInDegree (build_dependency_graph ps), [],
        (topoSeeds (calcInDegree (build_dependency_graph ps))).filter
          (fun n => tagInclude (build_dependency_graph ps) tagf n), false⟩ := by
  unfold topoRun
  rw [topoLoop_no_deps (build_dependency_graph ps) tagf
    (topoSeeds (calcInDegree (build_dependency_graph ps)))
    (topoBound ⟨calcInDegree (build_dependency_graph ps),
      topoSeeds (calcInDegree (build_dependency_graph ps)), [], false⟩)
    (calcInDegree (build_dependency_graph ps)) [] false
    (fun n hn => seed_no_rev ps h n hn) ?_]
  · simp
  · unfold topoBound
    simp

theorem topological_sort_nodup_eq (ps : List ExtendedProjectInfo)
    (h : (ps.map ExtendedProjectInfo.name).Nodup) (tagf : Option String) :
    topological_sort (build_dependency_graph ps) tagf =
      (topoSeeds (calcInDegree (build_dependency_graph ps))).filter
        (fun n => tagInclude (build_dependency_graph ps) tagf n) := by
  unfold topological_sort
  rw [topoRun_nodup ps h tagf]

theorem topological_sort_nodup_no_underflow (ps : List ExtendedProjectInfo)
    (h : (ps.map ExtendedProjectInfo.name).Nodup) (tagf : Option String) :
    topological_sort_underflowed (build_dependency_graph ps) tagf = false := by
  unfold topological_sort_underflowed
  rw [topoRun_nodup ps h tagf]

theorem topoLoop_stable_nodup (ps : List ExtendedProjectInfo)
    (h : (ps.map ExtendedProjectInfo.name).Nodup) (tagf : Option String) (extra : Nat) :
    topoLoop (build_dependency_graph ps) tagf
        (topoBound ⟨calcInDegree (build_dependency_graph ps),
          topoSeeds (calcInDegree (build_dependency_graph ps)), [], false⟩ + extra)
        ⟨calcInDegree (build_dependency_graph ps),
          topoSeeds (calcInDegree (build_dependency_graph ps)), [], false⟩ =
      topoLoop (build_dependency_graph ps) tagf
        (topoBound ⟨calcInDegree (build_dependency_graph ps),
          topoSeeds (calcInDegree (build_dependency_graph ps)), [], false⟩)
        ⟨calcInDegree (build_dependency_graph ps),
          topoSeeds (calcInDegree (build_dependency_graph ps)), [], false⟩ := by
  rw [topoLoop_no_deps (build_dependency_graph ps) tagf _ _ _ [] false
      (fun n hn => seed_no_rev ps h n hn) (by unfold topoBound; simp; omega),
    topoLoop_no_deps (build_dependency_graph ps) tagf _ _ _ [] false
      (fun n hn => seed_no_rev ps h n hn) (by unfold topoBound; simp)]

theorem bumpPairs_nil (pairs : List (String × List String))
    (hnil : ∀ kv ∈ pairs, kv.2 = []) :
    ∀ m, pairs.foldl (fun m2 kv => kv.2.foldl bumpInDegree m2) m = m := by
  induction pairs with
  | nil => intro m; rfl
  | cons kv rest ih =>
      intro m
      simp only [List.foldl_cons]
      rw [hnil kv (by simp), List.foldl_nil]
      exact ih (fun kv2 hkv2 => hnil kv2 (List.mem_cons_of_mem kv hkv2)) m

theorem topoSeeds_map_zero (ps : List ExtendedProjectInfo) :
    topoSeeds (ps.map (fun p => (p.name, 0))) = ps.map ExtendedProjectInfo.name := by
  unfold topoSeeds
  have hfil : (ps.map (fun p => (p.name, 0))).filter (fun kv => decide (kv.2 = 0)) =
      ps.map (fun p => (p.name, 0)) := by
    apply List.filter_eq_self.mpr
    intro kv hkv
    rcases List.mem_map.mp hkv with ⟨p, hp, hpe⟩
    rw [← hpe]
    simp
  rw [hfil, List.map_map]
  rfl

theorem calcInDegree_no_deps (ps : List ExtendedProjectInfo)
    (h : (ps.map ExtendedProjectInfo.name).Nodup)
    (hdeps : ∀ p ∈ ps, p.depends_on = []) :
    calcInDegree (build_dependency_graph ps) = ps.map (fun p => (p.name, 0)) := by
  unfold calcInDegree
  rw [build_edges_eq ps h, build_nodes_eq ps h, init_in_degree_eq ps h]
  exact bumpPairs_nil _ (by
    intro kv hkv
    rcases List.mem_map.mp hkv with ⟨p, hp, hpe⟩
    rw [← hpe]
    exact hdeps p hp) _

theorem revFold_nil (ps : List ExtendedProjectInfo)
    (hdeps : ∀ p ∈ ps, p.depends_on = []) :
    ∀ re, revFold ps re = re := by
  induction ps with
  | nil => intro re; rfl
  | cons p rest ih =>
      intro re
      unfold revFold
      simp only [List.foldl_cons]
      rw [hdeps p (by simp), List.foldl_nil]
      exact ih (fun q hq => hdeps q (List.mem_cons_of_mem p hq)) re

theorem build_reverse_nil (ps : List ExtendedProjectInfo)
    (hdeps : ∀ p ∈ ps, p.depends_on = []) :
    (build_dependency_graph ps).reverse_edges = [] := by
  rw [build_components]
  exact revFold_nil ps hdeps []

theorem analyze_impact_no_rev (g : DependencyGraph) (hrev : g.reverse_edges = [])
    (x : String) :
    analyze_project_impact g x =
      { project := x, direct_dependents := [], transitive_dependents := [],
        total_affected := 0 } := by
  have hadj : ∀ y, revAdj g y = [] := by
    intro y
    simp [revAdj, lookupD, hrev, alistLookup]
  unfold analyze_project_impact impactRun
  rw [hadj x]
  simp [bfsBound, reSum, hrev, bfsLoop]

theorem tagInclude_eq_tagMatch (ps : List ExtendedProjectInfo)
    (h : (ps.map ExtendedProjectInfo.name).Nodup) (p : ExtendedProjectInfo)
    (hp : p ∈ ps) (tagf : Option String) :
    tagInclude (build_dependency_graph ps) tagf p.name = tagMatch tagf p := by
  cases tagf with
  | none => rfl
  | some t =>
      have hlook : alistLookup (build_dependency_graph ps).nodes p.name = some p := by
        rw [build_nodes_eq ps h]
        exact lookup_of_mem_nodup _ _ _ (List.mem_map_of_mem _ hp)
          (by simpa [alistKeys, List.map_map, Function.comp_def] using h)
      simp [tagInclude, tagMatch, hlook]

theorem filter_map_comm {α β : Type} (f : α → β) (pr : β → Bool) (l : List α) :
    (l.map f).filter pr = (l.filter (fun x => pr (f x))).map f := by
  induction l with
  | nil => rfl
  | cons x rest ih =>
      by_cases hx : pr (f x) <;> simp [List.filter_cons, hx, ih]

/-! ## Lemmas about the snapshot-restore loop -/

theorem restoreLoop_filterMap (oc : RestoreOracles) (force : Bool) :
    ∀ entries : List SnapProject,
      restoreLoop oc force entries =
        (entries.filterMap (fun p => match restoreStep oc force p with
          | Sum.inl n => some n
          | Sum.inr _ => none),
         entries.filterMap (fun p => match restoreStep oc force p with
          | Sum.inl _ => none
          | Sum.inr e => some e)) := by
  intro entries
  induction entries with
  | nil => rfl
  | cons p rest ih =>
      cases hstep : restoreStep oc force p with
      | inl n => simp [restoreLoop, ih, hstep, List.filterMap_cons]
      | inr e => simp [restoreLoop, ih, hstep, List.filterMap_cons]

theorem restoreLoop_append (oc : RestoreOracles) (force : Bool)
    (es1 es2 : List SnapProject) :
    restoreLoop oc force (es1 ++ es2) =
      ((restoreLoop oc force es1).1 ++ (restoreLoop oc force es2).1,
       (restoreLoop oc force es1).2 ++ (restoreLoop oc force es2).2) := by
  rw [restoreLoop_filterMap, restoreLoop_filterMap, restoreLoop_filterMap]
  simp [List.filterMap_append]

theorem restoreLoop_length (oc : RestoreOracles) (force : Bool) :
    ∀ entries : List SnapProject,
      (restoreLoop oc force entries).1.length + (restoreLoop oc force entries).2.length =
        entries.length := by
  intro entries
  induction entries with
  | nil => rfl
  | cons p rest ih =>
      cases hstep : restoreStep oc force p with
      | inl n =>
          simp only [restoreLoop, hstep, List.length_cons]
          omega
      | inr e =>
          simp only [restoreLoop, hstep, List.length_cons]
          omega

/-! ## Claim theorems -/

/-- C1: the spec claims the query `dirty:true AND tag:backend` matches a repo
state iff the state is dirty and tagged `backend`. In the code, chaining the
split on `" AND "` with the split on `" and "` adds the spurious third
condition `("dirty", "true AND tag:backend")`, whose value fails to parse as a
bool and therefore demands `is_dirty = false`; together with the genuine
`dirty:true` condition the query matches no repository state at all. -/
theorem c1_query_and_matches_nothing (state : RepoState) :
    matches_query state (parse_query "dirty:true AND tag:backend") = false := by
  have h : parse_query "dirty:true AND tag:backend" =
      [("dirty", "true"), ("tag", "backend"), ("dirty", "true AND tag:backend")] := by
    decide
  rw [h]
  cases hd : state.is_dirty <;>
    simp [matches_query, condMatches, parseRustBool, hd]

/-- C2: the spec claims that on an acyclic graph the topological sort emits
every node, dependencies first. On the two-node acyclic graph where `A`
depends on `B`, the code emits only `["A"]`: the in-degree pass counts
dependents instead of a node's own dependencies, so `B` (whose only role is
being depended upon) is never dequeued, and `A` is emitted without its
dependency preceding it. -/
theorem c2_topological_sort_drops_acyclic_node :
    topological_sort (build_dependency_graph
      [{ name := "A", path := "pa", repo := "ra", tags := [], provides := [],
         depends_on := ["B"] },
       { name := "B", path := "pb", repo := "rb", tags := [], provides := [],
         depends_on := [] }]) none = ["A"] := by
  decide

/-- C4 (counterexample): with `X` and `A` depending on each other, the
reverse-dependency BFS from `X` reaches `X` itself at depth 2 and records the
queried project in `transitive_dependents`, contradicting the claim that the
origin is always excluded. -/
theorem c4_origin_in_transitive_counterexample :
    (analyze_project_impact
      (build_dependency_graph
        [{ name := "X", path := "x", repo := "r", tags := [], provides := [],
           depends_on := ["A"] },
         { name := "A", path := "a", repo := "r", tags := [], provides := [],
           depends_on := ["X"] }])
      "X").transitive_dependents = ["X"] := by
  decide

/-- C4 (amended): for every built dependency graph and queried name, the
`transitive_dependents` are nodes first visited at BFS depth greater than 1;
they are always disjoint from the `direct_dependents` list and consist of
nodes reachable via one or more reverse-dependency edges — but the queried
project itself is not excluded, and is reported when a reverse-dependency
cycle leads back to it. -/
theorem c4_transitive_disjoint_direct (g : DependencyGraph) (x : String) :
    (∀ t ∈ (analyze_project_impact g x).transitive_dependents,
        ¬ t ∈ (analyze_project_impact g x).direct_dependents) ∧
    (∀ t ∈ (analyze_project_impact g x).transitive_dependents, ReachPlus g x t) := by
  obtain ⟨⟨h1, _, _, _, _, h6, h7, _⟩, _⟩ := impactRun_spec g x
  constructor
  · intro t ht
    exact h6 t ht
  · intro t ht
    exact h1 t (h7 t ht)

theorem dependsPerm_exists (ps ps' : List ExtendedProjectInfo)
    (hperm : DependsPerm ps ps') (a b : String) :
    (∃ p ∈ ps, b = p.name ∧ a ∈ p.depends_on) ↔
      (∃ p ∈ ps', b = p.name ∧ a ∈ p.depends_on) := by
  induction hperm with
  | nil => simp
  | cons hpq _ ih =>
      constructor
      · rintro ⟨p, hp, hbp, hap⟩
        rcases List.mem_cons.mp hp with heq | hmem
        · subst heq
          exact ⟨_, List.mem_cons_self _ _, hbp.trans hpq.1, hpq.2.mem_iff.mp hap⟩
        · rcases ih.mp ⟨p, hmem, hbp, hap⟩ with ⟨q, hq, hbq, haq⟩
          exact ⟨q, List.mem_cons_of_mem _ hq, hbq, haq⟩
      · rintro ⟨q, hq, hbq, haq⟩
        rcases List.mem_cons.mp hq with heq | hmem
        · subst heq
          exact ⟨_, List.mem_cons_self _ _, hbq.trans hpq.1.symm, hpq.2.mem_iff.mpr haq⟩
        · rcases ih.mpr ⟨q, hmem, hbq, haq⟩ with ⟨p, hp, hbp, hap⟩
          exact ⟨p, List.mem_cons_of_mem _ hp, hbp, hap⟩

theorem reachPlus_congr (g g' : DependencyGraph)
    (hadj : ∀ a b, b ∈ revAdj g a ↔ b ∈ revAdj g' a) (x y : String)
    (h : ReachPlus g x y) : ReachPlus g' x y := by
  induction h with
  | single hb => exact ReachPlus.single ((hadj _ _).mp hb)
  | tail _ hb ih => exact ReachPlus.tail ih ((hadj _ _).mp hb)

theorem impact_total_ncard (g : DependencyGraph) (x : String) :
    (analyze_project_impact g x).total_affected =
      Set.ncard { y | ReachPlus g x y } := by
  obtain ⟨⟨_, _, _, _, h5, _, _, _⟩, _⟩ := impactRun_spec g x
  have hiff := impactRun_visited_iff g x
  have hset : { y | ReachPlus g x y } = ((impactRun g x).visited.toFinset : Set String) := by
    ext y
    simp only [Set.mem_setOf_eq, List.coe_toFinset]
    exact (hiff y).symm
  rw [show (analyze_project_impact g x).total_affected =
    (impactRun g x).visited.length from rfl]
  rw [hset, Set.ncard_coe_Finset]
  exact (List.toFinset_card_of_nodup h5).symm

/-- C7: the impact score `total_affected` equals the number of distinct nodes
reachable from the queried project through one or more reverse-dependency
edges, and it is invariant under reordering any project's `depends_on` list. -/
theorem c7_total_affected_reachable (ps : List ExtendedProjectInfo) (x : String) :
    ((analyze_project_impact (build_dependency_graph ps) x).total_affected =
      Set.ncard { y | ReachPlus (build_dependency_graph ps) x y }) ∧
    (∀ ps' : List ExtendedProjectInfo, DependsPerm ps ps' →
      (analyze_project_impact (build_dependency_graph ps) x).total_affected =
        (analyze_project_impact (build_dependency_graph ps') x).total_affected) := by
  refine ⟨impact_total_ncard _ x, ?_⟩
  intro ps' hperm
  rw [impact_total_ncard _ x, impact_total_ncard _ x]
  have hadj : ∀ a b, b ∈ revAdj (build_dependency_graph ps) a ↔
      b ∈ revAdj (build_dependency_graph ps') a := by
    intro a b
    rw [revAdj_build_mem, revAdj_build_mem]
    exact dependsPerm_exists ps ps' hperm a b
  have hsets : { y | ReachPlus (build_dependency_graph ps) x y } =
      { y | ReachPlus (build_dependency_graph ps') x y } := by
    ext y
    exact ⟨reachPlus_congr _ _ hadj x y,
      reachPlus_congr _ _ (fun a b => (hadj a b).symm) x y⟩
  rw [hsets]

theorem reachPlus_build_names (ps : List ExtendedProjectInfo) (x y : String)
    (h : ReachPlus (build_dependency_graph ps) x y) :
    y ∈ ps.map ExtendedProjectInfo.name := by
  induction h with
  | single hb =>
      rcases (revAdj_build_mem ps _ _).mp hb with ⟨p, hp, hy, _⟩
      exact hy ▸ List.mem_map_of_mem _ hp
  | tail _ hb ih =>
      rcases (revAdj_build_mem ps _ _).mp hb with ⟨p, hp, hy, _⟩
      exact hy ▸ List.mem_map_of_mem _ hp

/-- C3: the projects produced by `load_projects_extended` always carry empty
`provides` and `depends_on`, so the graph the impact-analysis and
execution-order tools build has no edges: impact analysis reports empty
dependent lists and a zero impact score for every queried name, and the
execution order is exactly the tag-matching projects. -/
theorem c3_no_dependency_edges (ps : List ProjectInfo)
    (h : (ps.map ProjectInfo.name).Nodup) :
    (∀ x, analyze_project_impact
        (build_dependency_graph (load_projects_extended ps)) x =
      { project := x, direct_dependents := [], transitive_dependents := [],
        total_affected := 0 }) ∧
    (∀ tagf, topological_sort
        (build_dependency_graph (load_projects_extended ps)) tagf =
      ((load_projects_extended ps).filter (fun p => tagMatch tagf p)).map
        ExtendedProjectInfo.name) := by
  have hnames : (load_projects_extended ps).map ExtendedProjectInfo.name =
      ps.map ProjectInfo.name := by
    unfold load_projects_extended
    rw [List.map_map]
    rfl
  have h' : ((load_projects_extended ps).map ExtendedProjectInfo.name).Nodup := by
    rw [hnames]; exact h
  have hdeps : ∀ p ∈ load_projects_extended ps, p.depends_on = [] := by
    intro p hp
    rcases List.mem_map.mp hp with ⟨q, _, hq⟩
    rw [← hq]
  constructor
  · intro x
    exact analyze_impact_no_rev _ (build_reverse_nil _ hdeps) x
  · intro tagf
    rw [topological_sort_nodup_eq _ h' tagf, calcInDegree_no_deps _ h' hdeps,
      topoSeeds_map_zero, filter_map_comm]
    congr 1
    apply List.filter_congr
    intro p hp
    exact tagInclude_eq_tagMatch _ h' p hp tagf

/-- Witness for C3 at a concrete three-project manifest. -/
theorem c3_no_dependency_edges_witness :
    (analyze_project_impact
        (build_dependency_graph (load_projects_extended [exP1, exP2, exP3])) "P1" =
      { project := "P1", direct_dependents := [], transitive_dependents := [],
        total_affected := 0 }) ∧
    (topological_sort
        (build_dependency_graph (load_projects_extended [exP1, exP2, exP3]))
        (some "backend") =
      ((load_projects_extended [exP1, exP2, exP3]).filter
        (fun p => tagMatch (some "backend") p)).map ExtendedProjectInfo.name) :=
  ⟨(c3_no_dependency_edges [exP1, exP2, exP3] (by decide)).1 "P1",
   (c3_no_dependency_edges [exP1, exP2, exP3] (by decide)).2 (some "backend")⟩

/-- C10: a `depends_on` entry naming an undeclared project is retained in the
edge maps (it appears in the depending project's edge list and as a
reverse-edge key), the in-degree update of the sort never decrements a zero
counter, and the dangling name is never emitted by the sort nor visited or
reported by impact analysis. -/
theorem c10_dangling_dependency_safe (ps : List ExtendedProjectInfo) (d : String)
    (p0 : ExtendedProjectInfo) (h : (ps.map ExtendedProjectInfo.name).Nodup)
    (hd : ¬ d ∈ ps.map ExtendedProjectInfo.name) (hp0 : p0 ∈ ps)
    (hdep : d ∈ p0.depends_on) :
    (alistLookup (build_dependency_graph ps).edges p0.name = some p0.depends_on) ∧
    (p0.name ∈ revAdj (build_dependency_graph ps) d) ∧
    (∀ tagf, topological_sort_underflowed (build_dependency_graph ps) tagf = false) ∧
    (∀ tagf, ¬ d ∈ topological_sort (build_dependency_graph ps) tagf) ∧
    (∀ x, ¬ d ∈ (impactRun (build_dependency_graph ps) x).visited) ∧
    (∀ x, ¬ d ∈ (analyze_project_impact (build_dependency_graph ps) x).transitive_dependents) := by
  have hvisited : ∀ x, ¬ d ∈ (impactRun (build_dependency_graph ps) x).visited := by
    intro x hmem
    have hreach := (impactRun_visited_iff (build_dependency_graph ps) x d).mp hmem
    exact hd (reachPlus_build_names ps x d hreach)
  refine ⟨?_, ?_, ?_, ?_, hvisited, ?_⟩
  · rw [build_edges_eq ps h]
    exact lookup_of_mem_nodup _ _ _ (List.mem_map_of_mem _ hp0)
      (by simpa [alistKeys, List.map_map, Function.comp_def] using h)
  · exact (revAdj_build_mem ps d p0.name).mpr ⟨p0, hp0, rfl, hdep⟩
  · intro tagf
    exact topological_sort_nodup_no_underflow ps h tagf
  · intro tagf hmem
    rw [topological_sort_nodup_eq ps h tagf] at hmem
    have hseed : d ∈ topoSeeds (calcInDegree (build_dependency_graph ps)) :=
      (List.mem_filter.mp hmem).1
    exact hd (seed_zero_lookup ps h d hseed).2
  · intro x hmem
    obtain ⟨⟨_, _, _, _, _, _, h7, _⟩, _⟩ := impactRun_spec (build_dependency_graph ps) x
    exact hvisited x (h7 d hmem)

/-- Witness for C10 at a single project carrying a dangling dependency. -/
theorem c10_dangling_dependency_safe_witness :
    (alistLookup (build_dependency_graph [exDangA]).edges exDangA.name =
      some exDangA.depends_on) ∧
    (exDangA.name ∈ revAdj (build_dependency_graph [exDangA]) "D") ∧
    (topological_sort_underflowed (build_dependency_graph [exDangA]) none = false) ∧
    (¬ "D" ∈ topological_sort (build_dependency_graph [exDangA]) none) ∧
    (¬ "D" ∈ (impactRun (build_dependency_graph [exDangA]) "A").visited) := by
  have hc := c10_dangling_dependency_safe [exDangA] "D" exDangA
    (by decide) (by decide) (by decide) (by decide)
  exact ⟨hc.1, hc.2.1, hc.2.2.1 none, hc.2.2.2.1 none, hc.2.2.2.2.1 "A"⟩

/-- Witness for C7 at two concrete graphs that differ only in the order of one
project's `depends_on` list. -/
theorem c7_total_affected_reachable_witness :
    (analyze_project_impact (build_dependency_graph [exC7a, exC7x]) "X").total_affected =
      (analyze_project_impact (build_dependency_graph [exC7a2, exC7x]) "X").total_affected :=
  (c7_total_affected_reachable [exC7a, exC7x] "X").2 [exC7a2, exC7x]
    (List.Forall₂.cons ⟨rfl, List.Perm.swap "Y" "X" []⟩
      (List.Forall₂.cons ⟨rfl, List.Perm.refl _⟩ List.Forall₂.nil))

/-- C9: neither traversal can run forever. The BFS of impact analysis reaches
a fixed point within its computed fuel bound from any starting state (extra
fuel never changes the outcome), the queue loop of the sort likewise
stabilizes at its bound, and the visited list of the BFS never records a node
twice. -/
theorem c9_traversals_terminate (ps : List ExtendedProjectInfo) (x : String)
    (tagf : Option String) (extra : Nat) (s : BfsState)
    (h : (ps.map ExtendedProjectInfo.name).Nodup) :
    (bfsLoop (build_dependency_graph ps)
        (bfsBound (build_dependency_graph ps) s + extra) s =
      bfsLoop (build_dependency_graph ps) (bfsBound (build_dependency_graph ps) s) s) ∧
    (topoLoop (build_dependency_graph ps) tagf
        (topoBound ⟨calcInDegree (build_dependency_graph ps),
          topoSeeds (calcInDegree (build_dependency_graph ps)), [], false⟩ + extra)
        ⟨calcInDegree (build_dependency_graph ps),
          topoSeeds (calcInDegree (build_dependency_graph ps)), [], false⟩ =
      topoLoop (build_dependency_graph ps) tagf
        (topoBound ⟨calcInDegree (build_dependency_graph ps),
          topoSeeds (calcInDegree (build_dependency_graph ps)), [], false⟩)
        ⟨calcInDegree (build_dependency_graph ps),
          topoSeeds (calcInDegree (build_dependency_graph ps)), [], false⟩) ∧
    ((impactRun (build_dependency_graph ps) x).visited.Nodup) := by
  refine ⟨bfsLoop_extra _ _ extra s (le_refl _),
    topoLoop_stable_nodup ps h tagf extra, ?_⟩
  obtain ⟨⟨_, _, _, _, h5, _, _, _⟩, _⟩ := impactRun_spec (build_dependency_graph ps) x
  exact h5

/-- Witness for C9 on the concrete two-project graph where `A` depends on
`B`, starting the BFS from a queue holding `B` at depth 1. -/
theorem c9_traversals_terminate_witness :
    (bfsLoop (build_dependency_graph [exA, exB])
        (bfsBound (build_dependency_graph [exA, exB]) ⟨[], [], [("B", 1)]⟩ + 3)
        ⟨[], [], [("B", 1)]⟩ =
      bfsLoop (build_dependency_graph [exA, exB])
        (bfsBound (build_dependency_graph [exA, exB]) ⟨[], [], [("B", 1)]⟩)
        ⟨[], [], [("B", 1)]⟩) ∧
    (topoLoop (build_dependency_graph [exA, exB]) none
        (topoBound ⟨calcInDegree (build_dependency_graph [exA, exB]),
          topoSeeds (calcInDegree (build_dependency_graph [exA, exB])), [], false⟩ + 3)
        ⟨calcInDegree (build_dependency_graph [exA, exB]),
          topoSeeds (calcInDegree (build_dependency_graph [exA, exB])), [], false⟩ =
      topoLoop (build_dependency_graph [exA, exB]) none
        (topoBound ⟨calcInDegree (build_dependency_graph [exA, exB]),
          topoSeeds (calcInDegree (build_dependency_graph [exA, exB])), [], false⟩)
        ⟨calcInDegree (build_dependency_graph [exA, exB]),
          topoSeeds (calcInDegree (build_dependency_graph [exA, exB])), [], false⟩) ∧
    ((impactRun (build_dependency_graph [exA, exB]) "B").visited.Nodup) :=
  c9_traversals_terminate [exA, exB] "B" none 3 ⟨[], [], [("B", 1)]⟩ (by decide)

/-- C8: snapshot restore processes the recorded projects independently in
snapshot order: every entry lands in exactly one of `restored`/`failed`
according to its own pipeline outcome, later entries never affect earlier
results (the loop distributes over list concatenation), the overall status is
`success` exactly when every recorded project was restored, and the
missing-path and dirty-without-force failures are recorded per project while
processing continues. -/
theorem c8_restore_per_project (oc : RestoreOracles) (force : Bool)
    (entries es1 es2 : List SnapProject) :
    ((tool_snapshot_restore oc entries force).restored =
      entries.filterMap (fun p => match restoreStep oc force p with
        | Sum.inl n => some n
        | Sum.inr _ => none)) ∧
    ((tool_snapshot_restore oc entries force).failed =
      entries.filterMap (fun p => match restoreStep oc force p with
        | Sum.inl _ => none
        | Sum.inr e => some e)) ∧
    (restoreLoop oc force (es1 ++ es2) =
      ((restoreLoop oc force es1).1 ++ (restoreLoop oc force es2).1,
       (restoreLoop oc force es1).2 ++ (restoreLoop oc force es2).2)) ∧
    ((tool_snapshot_restore oc entries force).status = "success" ↔
      (tool_snapshot_restore oc entries force).restored.length = entries.length) ∧
    ((tool_snapshot_restore oc entries force).restored.length +
      (tool_snapshot_restore oc entries force).failed.length = entries.length) ∧
    (∀ p ∈ entries, oc.pathExists p.path = false →
      (p.name, "Path does not exist") ∈ (tool_snapshot_restore oc entries force).failed) ∧
    (∀ p ∈ entries, oc.pathExists p.path = true → oc.gitStatus p.path ≠ "" →
      force = false →
      (p.name, "Has uncommitted changes (use force=true to override)") ∈
        (tool_snapshot_restore oc entries force).failed) := by
  have hlo := restoreLoop_filterMap oc force entries
  have hr : (tool_snapshot_restore oc entries force).restored =
      entries.filterMap (fun p => match restoreStep oc force p with
        | Sum.inl n => some n
        | Sum.inr _ => none) := by
    show (restoreLoop oc force entries).1 = _
    rw [hlo]
  have hfl : (tool_snapshot_restore oc entries force).failed =
      entries.filterMap (fun p => match restoreStep oc force p with
        | Sum.inl _ => none
        | Sum.inr e => some e) := by
    show (restoreLoop oc force entries).2 = _
    rw [hlo]
  have hlen := restoreLoop_length oc force entries
  refine ⟨hr, hfl, restoreLoop_append oc force es1 es2, ?_, hlen, ?_, ?_⟩
  · show (if (restoreLoop oc force entries).2 = [] then "success" else "partial") =
      "success" ↔ (restoreLoop oc force entries).1.length = entries.length
    by_cases hemp : (restoreLoop oc force entries).2 = []
    · rw [if_pos hemp]
      rw [hemp] at hlen
      simp only [List.length_nil, Nat.add_zero] at hlen
      exact ⟨fun _ => hlen, fun _ => rfl⟩
    · rw [if_neg hemp]
      constructor
      · intro hcontra
        exact absurd hcontra (by decide)
      · intro hlen1
        have : (restoreLoop oc force entries).2.length = 0 := by omega
        exact absurd (List.length_eq_zero.mp this) hemp
  · intro p hp hpe
    rw [hfl]
    apply List.mem_filterMap.mpr
    refine ⟨p, hp, ?_⟩
    have hstep : restoreStep oc force p = Sum.inr (p.name, "Path does not exist") := by
      unfold restoreStep
      rw [if_pos (by simp [hpe])]
    rw [hstep]
  · intro p hp hpe hst hforce
    rw [hfl]
    apply List.mem_filterMap.mpr
    refine ⟨p, hp, ?_⟩
    have hstep : restoreStep oc force p =
        Sum.inr (p.name, "Has uncommitted changes (use force=true to override)") := by
      unfold restoreStep
      rw [if_neg (by simp [hpe])]
      rw [if_pos ⟨hst, by simp [hforce]⟩]
    rw [hstep]

/-- Witness for C8: a two-entry snapshot where the second entry's path is
missing yields a partial restore that still records the first as restored. -/
theorem c8_restore_per_project_witness :
    ("P2", "Path does not exist") ∈
      (tool_snapshot_restore exOracles [exSnap1, exSnap2] false).failed :=
  (c8_restore_per_project exOracles false [exSnap1, exSnap2] [] []).2.2.2.2.2.1
    exSnap2 (by decide) (by decide)

/-- C5: with three projects whose paths exist, where the batch command
succeeds on the first and fails on the second, atomic mode stops after the
second project (no results entry for the third), reports the failure and a
performed rollback; non-atomic mode runs all three and performs no rollback. -/
theorem c5_atomic_batch_scenario (p1 p2 p3 : ProjectInfo) (pe : String → Bool)
    (run : ProjectInfo → RunOutcome) (o1 e1 o2 e2 o3 e3 : String) (s3 : Bool)
    (r : RestoreResponse)
    (h1 : pe p1.path = true) (h2 : pe p2.path = true) (h3 : pe p3.path = true)
    (hr1 : run p1 = RunOutcome.ran true o1 e1)
    (hr2 : run p2 = RunOutcome.ran false o2 e2)
    (hr3 : run p3 = RunOutcome.ran s3 o3 e3) :
    (tool_batch_execute [p1, p2, p3] none true pe run (Except.ok r) =
      Except.ok (BatchResponse.mk
        [PResult.ran p1.name true o1 e1, PResult.ran p2.name false o2 e2]
        true true (some r))) ∧
    (tool_batch_execute [p1, p2, p3] none false pe run (Except.ok r) =
      Except.ok (BatchResponse.mk
        [PResult.ran p1.name true o1 e1, PResult.ran p2.name false o2 e2,
          PResult.ran p3.name s3 o3 e3]
        true false none)) := by
  have hloopT : batchLoop true pe run [p1, p2, p3] false [] =
      ([PResult.ran p1.name true o1 e1, PResult.ran p2.name false o2 e2], true) := by
    simp [batchLoop, h1, h2, hr1, hr2]
  have hloopF : batchLoop false pe run [p1, p2, p3] false [] =
      ([PResult.ran p1.name true o1 e1, PResult.ran p2.name false o2 e2,
        PResult.ran p3.name s3 o3 e3], true) := by
    simp [batchLoop, h1, h2, h3, hr1, hr2, hr3]
  constructor
  · unfold tool_batch_execute batchFilter
    simp only [hloopT]
    rfl
  · unfold tool_batch_execute batchFilter
    simp only [hloopF]
    rfl

/-- Witness for C5 at the concrete three-project manifest where the shell
command fails exactly on `P2`. -/
theorem c5_atomic_batch_scenario_witness :
    (tool_batch_execute [exP1, exP2, exP3] none true (fun _ => true) exRun
        (Except.ok (RestoreResponse.mk "success" [] [] 0 0)) =
      Except.ok (BatchResponse.mk
        [PResult.ran "P1" true "ok" "", PResult.ran "P2" false "" "boom"]
        true true (some (RestoreResponse.mk "success" [] [] 0 0)))) ∧
    (tool_batch_execute [exP1, exP2, exP3] none false (fun _ => true) exRun
        (Except.ok (RestoreResponse.mk "success" [] [] 0 0)) =
      Except.ok (BatchResponse.mk
        [PResult.ran "P1" true "ok" "", PResult.ran "P2" false "" "boom",
          PResult.ran "P3" true "ok" ""]
        true false none)) :=
  c5_atomic_batch_scenario exP1 exP2 exP3 (fun _ => true) exRun
    "ok" "" "" "boom" "ok" "" true (RestoreResponse.mk "success" [] [] 0 0)
    rfl rfl rfl (by decide) (by decide) (by decide)

/-- C6 (counterexample): when the pre-batch snapshot is missing (its creation
failed), the atomic rollback's restore call returns an error which the `?`
operator propagates, so the batch call yields a single all-or-nothing error
instead of a structured outcome — contradicting the claim as stated. -/
theorem c6_rollback_error_counterexample :
    tool_batch_execute [exP2] none true (fun _ => true) exRun
      (tool_snapshot_restore_full exOracles "atomic-batch-0" none true) =
      Except.error "Snapshot atomic-batch-0 not found" := by
  rfl

/-- C6 (amended): batch execute returns a structured outcome whenever the
rollback restore call does not itself error (in particular whenever it is not
attempted), and in that outcome a performed rollback (`rolled_back = true`
with its result payload) is reported distinctly from a rollback that was not
attempted (`rolled_back = false`, no payload); snapshot restore, once the
snapshot is loaded, always returns a structured outcome in which every
recorded project is classified as restored or failed. When the rollback
restore itself errors (e.g. the pre-batch snapshot is missing because its
creation failed), the whole batch call instead returns that single error. -/
theorem c6_structured_outcome (projects : List ProjectInfo) (tagf : Option String)
    (atomic : Bool) (pe : String → Bool) (run : ProjectInfo → RunOutcome)
    (rr : Except String RestoreResponse) (oc : RestoreOracles)
    (entries : List SnapProject) (force : Bool) (hrr : rr.isOk = true) :
    ((tool_batch_execute projects tagf atomic pe run rr).isOk = true) ∧
    (∀ b, tool_batch_execute projects tagf atomic pe run rr = Except.ok b →
      (b.rolled_back = true ↔ b.rollback_result.isSome = true)) ∧
    ((tool_snapshot_restore oc entries force).restored.length +
      (tool_snapshot_restore oc entries force).failed.length = entries.length) := by
  obtain ⟨r, hr⟩ : ∃ r, rr = Except.ok r := by
    cases rr with
    | ok r => exact ⟨r, rfl⟩
    | error e => exact Bool.noConfusion hrr
  subst hr
  refine ⟨?_, ?_, restoreLoop_length oc force entries⟩
  · unfold tool_batch_execute batchFinish
    split
    · rfl
    · rfl
  · intro b hb
    unfold tool_batch_execute batchFinish at hb
    split at hb
    · have hb2 : Except.ok (BatchResponse.mk
          (batchLoop atomic pe run (batchFilter projects tagf) false []).1
          (batchLoop atomic pe run (batchFilter projects tagf) false []).2
          true (some r)) = Except.ok b := hb
      injection hb2 with hb3
      rw [← hb3]
      simp
    · injection hb with hb3
      rw [← hb3]
      simp

/-- Witness for C6 at a concrete atomic batch whose rollback restore call
returns a structured result. -/
theorem c6_structured_outcome_witness :
    (tool_batch_execute [exP1, exP2] none true (fun _ => true) exRun
      (Except.ok (tool_snapshot_restore exOracles [exSnap1] true))).isOk = true :=
  (c6_structured_outcome [exP1, exP2] none true (fun _ => true) exRun
    (Except.ok (tool_snapshot_restore exOracles [exSnap1] true)) exOracles
    [exSnap1] true rfl).1
